import Mathlib

/-!
Verification of the cosmoline coverage-report renderer against its design
specification.  The Rust sources are shallowly embedded: strings become
`List Char`, fallible operations (Rust panics, index-out-of-bounds,
`unwrap` on `None`) become `Option`/`Except`, and machine integers are
modelled as `Int` with explicit two's-complement wrapping where the source
performs 64-bit arithmetic (Rust release-profile semantics).
-/

namespace Cosmoline

/-! ## UTF-8 model

Rust `String`s are UTF-8 encoded; `char_indices` enumerates characters
together with their byte offsets, and `String::insert_str` panics when the
given byte offset is not a character boundary.  We model a string as its
list of code points and compute byte offsets from each code point's UTF-8
size. -/

/-- UTF-8 encoded size in bytes of one code point. -/
def utf8Len (c : Char) : Nat :=
  if c.val.toNat ≤ 0x7F then 1
  else if c.val.toNat ≤ 0x7FF then 2
  else if c.val.toNat ≤ 0xFFFF then 3
  else 4

theorem utf8Len_pos (c : Char) : 0 < utf8Len c := by
  unfold utf8Len
  repeat' split
  all_goals norm_num

/-- Total UTF-8 byte length of a string. -/
def byteLen : List Char → Nat
  | [] => 0
  | c :: cs => utf8Len c + byteLen cs

theorem byteLen_append (s t : List Char) :
    byteLen (s ++ t) = byteLen s + byteLen t := by
  induction s with
  | nil => simp [byteLen]
  | cons c cs ih => simp [byteLen, ih]; ring

/-- Splitting a string at a byte offset: returns the two halves when the
offset is a character boundary within the string, `none` otherwise (the
case where Rust `String::insert_str` would panic). -/
def splitAtByte : List Char → Nat → Option (List Char × List Char)
  | s, 0 => some ([], s)
  | [], _ + 1 => none
  | c :: cs, b + 1 =>
    if _h : utf8Len c ≤ b + 1 then
      (splitAtByte cs (b + 1 - utf8Len c)).map (fun p => (c :: p.1, p.2))
    else none

/-- Model of Rust `String::insert_str`: insert at a byte offset, `none`
models the panic on a non-boundary offset. -/
def insertStrAt (s : List Char) (b : Nat) (t : List Char) : Option (List Char) :=
  (splitAtByte s b).map (fun p => p.1 ++ t ++ p.2)

/-- Model of a Rust `as usize` cast of an `i64` value (64-bit wrapping). -/
def usizeOfInt (i : Int) : Nat := (i % (2 ^ 64 : Int)).toNat

/-! ## src/utils.rs -/

/-- Embedding of `utils::sanitize_filename`: flatten `/` to `_` and append
the `.html` extension.  (Rust's `str::replace` with the one-character
pattern `"/"` is exactly a character map.) -/
def sanitize_filename (input : List Char) : List Char :=
  (input.map (fun c => if c = '/' then '_' else c)) ++ ".html".data

/-- Embedding of `utils::color_for_percent`.  The percent is an `f64` in
the source; we model it as a rational, which is faithful for the order
comparisons against the exactly representable thresholds `75.0` and
`90.0` on every non-NaN input.  The final match arm `_ => unimplemented!()`
(reachable only for NaN in the source) is modelled by `none`. -/
def color_for_percent (percent : Rat) : Option (List Char) :=
  if percent < 75 then some "red".data
  else if 75 ≤ percent ∧ percent < 90 then some "yellow".data
  else if 90 ≤ percent then some "green".data
  else none

/-- Embedding of `utils::InsertAtCharacter::insert_at_char` for `String`.
The source collects `char_indices` (whose length is the character count
and whose entries are byte offsets), appends when the character index is
out of range, and otherwise calls `String::insert_str` at the byte offset
of the addressed character minus one (the off-by-one present in the
source), or at offset zero.  `none` models the `insert_str` panic on a
non-boundary byte offset. -/
def insert_at_char (s : List Char) (index : Nat) (t : List Char) : Option (List Char) :=
  if index ≥ s.length then some (s ++ t)
  else
    let b := byteLen (s.take index)
    if b ≥ byteLen s then some (s ++ t)
    else if b > 0 then insertStrAt s (b - 1) t
    else insertStrAt s b t

/-! ## Basic facts about the UTF-8 model -/

theorem byteLen_take_lt (s : List Char) (q : Nat) (h : q < s.length) :
    byteLen (s.take q) < byteLen s := by
  induction s generalizing q with
  | nil => simp at h
  | cons c cs ih =>
    cases q with
    | zero =>
      simp [byteLen]
      have := utf8Len_pos c
      have : 0 ≤ byteLen cs := Nat.zero_le _
      omega
    | succ q' =>
      simp [byteLen]
      have hq : q' < cs.length := by simpa using h
      have := ih q' hq
      omega

theorem byteLen_take_strict_mono (s : List Char) (q q' : Nat)
    (h : q < q') (h' : q' ≤ s.length) :
    byteLen (s.take q) < byteLen (s.take q') := by
  have h1 : s.take q' = (s.take q').take q ++ (s.take q').drop q := by
    simp
  have h2 : (s.take q').take q = s.take q := by
    rw [List.take_take]
    congr 1
    omega
  have hlen : q < (s.take q').length := by
    simp
    omega
  have := byteLen_take_lt (s.take q') q hlen
  rw [h2] at this
  exact this

theorem splitAtByte_boundary (s : List Char) (q : Nat) (h : q ≤ s.length) :
    splitAtByte s (byteLen (s.take q)) = some (s.take q, s.drop q) := by
  induction s generalizing q with
  | nil =>
    have : q = 0 := by simpa using h
    subst this
    simp [splitAtByte, byteLen]
  | cons c cs ih =>
    cases q with
    | zero => simp [splitAtByte, byteLen]
    | succ q' =>
      have hq : q' ≤ cs.length := by simpa using h
      have hpos := utf8Len_pos c
      have hb : byteLen ((c :: cs).take (q' + 1)) = utf8Len c + byteLen (cs.take q') := by
        simp [byteLen]
      rw [hb]
      have hsum : utf8Len c + byteLen (cs.take q') = (utf8Len c + byteLen (cs.take q') - 1) + 1 := by
        omega
      rw [hsum]
      unfold splitAtByte
      have hle : utf8Len c ≤ (utf8Len c + byteLen (cs.take q') - 1) + 1 := by omega
      rw [dif_pos hle]
      have harg : (utf8Len c + byteLen (cs.take q') - 1) + 1 - utf8Len c = byteLen (cs.take q') := by
        omega
      rw [harg, ih q' hq]
      simp

theorem splitAtByte_parts (s : List Char) (b : Nat) (u v : List Char)
    (h : splitAtByte s b = some (u, v)) : s = u ++ v ∧ byteLen u = b := by
  induction s generalizing b u v with
  | nil =>
    cases b with
    | zero =>
      simp [splitAtByte] at h
      obtain ⟨h1, h2⟩ := h
      subst h1; subst h2
      simp [byteLen]
    | succ b' => simp [splitAtByte] at h
  | cons c cs ih =>
    cases b with
    | zero =>
      simp [splitAtByte] at h
      obtain ⟨h1, h2⟩ := h
      subst h1; subst h2
      simp [byteLen]
    | succ b' =>
      unfold splitAtByte at h
      by_cases hc : utf8Len c ≤ b' + 1
      · rw [dif_pos hc] at h
        cases hsp : splitAtByte cs (b' + 1 - utf8Len c) with
        | none => rw [hsp] at h; simp at h
        | some p =>
          rw [hsp] at h
          simp at h
          obtain ⟨h1, h2⟩ := h
          obtain ⟨hs, hb⟩ := ih (b' + 1 - utf8Len c) p.1 p.2 (by rw [hsp])
          constructor
          · rw [← h1, ← h2, hs]; simp
          · rw [← h1]
            simp [byteLen, hb]
            omega
      · rw [dif_neg hc] at h
        simp at h

theorem insertStrAt_zero (s t : List Char) : insertStrAt s 0 t = some (t ++ s) := by
  simp [insertStrAt, splitAtByte]

/-- Characterisation of every successful run of `insert_at_char`: the
marker is inserted contiguously at a character position `p`, where `p` is
the end of the string when the index is out of range, and `index - 1`
otherwise (the source's off-by-one; for `index = 0` natural subtraction
gives position `0`, matching the source's zero branch). -/
theorem insert_at_char_some (s : List Char) (q : Nat) (t r : List Char)
    (h : insert_at_char s q t = some r) :
    (q ≥ s.length ∧ r = s.take s.length ++ t ++ s.drop s.length) ∨
    (q < s.length ∧ r = s.take (q - 1) ++ t ++ s.drop (q - 1)) := by
  unfold insert_at_char at h
  by_cases hq : q ≥ s.length
  · rw [if_pos hq] at h
    simp at h
    left
    refine ⟨hq, ?_⟩
    simp [← h]
  · rw [if_neg hq] at h
    push_neg at hq
    right
    refine ⟨hq, ?_⟩
    have hlt : byteLen (s.take q) < byteLen s := byteLen_take_lt s q hq
    rw [if_neg (by omega)] at h
    by_cases hz : byteLen (s.take q) > 0
    · rw [if_pos hz] at h
      -- the source inserts at byte offset (offset of char q) - 1
      have hq0 : 0 < q := by
        by_contra hq0
        push_neg at hq0
        interval_cases q
        simp [byteLen] at hz
      -- decompose the byte offset through character q - 1
      have hsplit : s.take q = s.take (q - 1) ++ [s.get ⟨q - 1, by omega⟩] := by
        conv_lhs => rw [show q = (q - 1) + 1 by omega]
        rw [List.take_succ]
        congr 1
        rw [List.getElem?_eq_getElem (by omega)]
        simp
      have hbq : byteLen (s.take q) =
          byteLen (s.take (q - 1)) + utf8Len (s.get ⟨q - 1, by omega⟩) := by
        rw [hsplit, byteLen_append]
        simp [byteLen]
      -- success of insertStrAt forces the preceding character to be 1 byte
      unfold insertStrAt at h
      cases hsp : splitAtByte s (byteLen (s.take q) - 1) with
      | none => rw [hsp] at h; simp at h
      | some p =>
        rw [hsp] at h
        simp at h
        obtain ⟨hs, hb⟩ := splitAtByte_parts s _ p.1 p.2 hsp
        -- p.1 is a prefix of s whose byteLen is byteLen (take q) - 1;
        -- by strict monotonicity its length must be q - 1
        have hp1 : p.1 = s.take p.1.length := by
          have : s.take p.1.length = (p.1 ++ p.2).take p.1.length := by rw [← hs]
          rw [this, List.take_left]
        have hplen : p.1.length ≤ s.length := by
          rw [hs]; simp
        have hple : p.1.length = q - 1 := by
          by_contra hne
          rcases Nat.lt_or_ge p.1.length (q - 1) with hlt2 | hge
          · have := byteLen_take_strict_mono s p.1.length (q - 1) hlt2 (by omega)
            rw [← hp1] at this
            have hup := utf8Len_pos (s.get ⟨q - 1, by omega⟩)
            omega
          · have hqle : q ≤ p.1.length := by omega
            rcases Nat.eq_or_lt_of_le hqle with he | hlt2
            · have h2 : byteLen p.1 = byteLen (s.take q) := by
                conv_lhs => rw [hp1, ← he]
              omega
            · have := byteLen_take_strict_mono s q p.1.length hlt2 hplen
              have h2 : byteLen p.1 = byteLen (s.take p.1.length) := by
                conv_lhs => rw [hp1]
              omega
        have hp1' : p.1 = s.take (q - 1) := by rw [hp1, hple]
        have hp2 : p.2 = s.drop (q - 1) := by
          have : s.drop p.1.length = (p.1 ++ p.2).drop p.1.length := by rw [← hs]
          rw [List.drop_left] at this
          rw [hple] at this
          exact this.symm
        rw [← h, hp1', hp2]
        simp [List.append_assoc]
    · rw [if_neg hz] at h
      push_neg at hz
      have hz0 : byteLen (s.take q) = 0 := by omega
      rw [hz0] at h
      rw [insertStrAt_zero] at h
      simp at h
      have hq0 : q = 0 := by
        by_contra hne
        have h1 : 1 ≤ q := by omega
        have := byteLen_take_strict_mono s 0 1 (by omega) (by omega)
        have h2 : byteLen (s.take 0) = 0 := by simp [byteLen]
        have h3 : byteLen (s.take 1) ≤ byteLen (s.take q) := by
          rcases Nat.eq_or_lt_of_le h1 with he | hlt2
          · rw [he]
          · exact le_of_lt (byteLen_take_strict_mono s 1 q hlt2 (by omega))
        omega
      subst hq0
      simp [← h]

/-- Inserting at character index 0 always succeeds and puts the marker in
front. -/
theorem insert_at_char_zero (s t : List Char) :
    insert_at_char s 0 t = some (t ++ s) := by
  unfold insert_at_char
  by_cases hq : (0 : Nat) ≥ s.length
  · rw [if_pos hq]
    have : s = [] := List.length_eq_zero.mp (by omega)
    subst this
    simp
  · rw [if_neg hq]
    push_neg at hq
    have h0 : byteLen (s.take 0) = 0 := by simp [byteLen]
    simp only [h0]
    have hpos : 0 < byteLen s := by
      have := byteLen_take_lt s 0 hq
      simpa [byteLen] using this
    rw [if_neg (by omega), if_neg (by omega)]
    exact insertStrAt_zero s t

/-! ## Claims about src/utils.rs -/

/-- C1: the claim states that inserting a marker at any character index of
any line never splits a code point and never fails.  The source violates
this: on the line `"ва"` (two two-byte Cyrillic code points) with
character index 1, `insert_at_char` computes the byte offset 2 of the
addressed character and then calls `String::insert_str` at byte offset 1,
which is in the middle of the first code point, so the call panics
(modelled as `none`). -/
theorem c1_insert_multibyte_fails :
    insert_at_char ['в', 'а'] 1 "\x7b\x7b end_segment \x7d\x7d".data = none := by decide

/-- C4: the claim states that a negative percent is rejected rather than
silently classified.  The source's own doc comment says the function
"will panic on negative values", but the first match arm `i if i < 75.0`
captures every negative input and silently returns the low category
("red"); the panicking arm is unreachable for any ordered value. -/
theorem c4_negative_percent_classified_low :
    color_for_percent (-5) = some "red".data := by
  norm_num [color_for_percent]

/-- C8: the classifier maps values strictly below 75 to "red" (low),
values in [75, 90) to "yellow" (medium) and values at least 90 to
"green" (high). -/
theorem c8_percent_thresholds (p : Rat) :
    (p < 75 → color_for_percent p = some "red".data) ∧
    (75 ≤ p → p < 90 → color_for_percent p = some "yellow".data) ∧
    (90 ≤ p → color_for_percent p = some "green".data) := by
  refine ⟨fun h => ?_, fun h1 h2 => ?_, fun h => ?_⟩
  · simp [color_for_percent, h]
  · have hn : ¬p < 75 := by linarith
    simp [color_for_percent, hn, h1, h2]
  · have hn : ¬p < 75 := by linarith
    have hn2 : ¬p < 90 := by linarith
    simp [color_for_percent, hn, hn2, h]

/-- Witness for C8 at the four boundary values named by the claim:
74.999 is low, 75 is medium, 89.999 is medium, 90 is high. -/
theorem c8_percent_thresholds_witness :
    color_for_percent (74999 / 1000) = some "red".data ∧
    color_for_percent 75 = some "yellow".data ∧
    color_for_percent (89999 / 1000) = some "yellow".data ∧
    color_for_percent 90 = some "green".data :=
  ⟨(c8_percent_thresholds (74999 / 1000)).1 (by norm_num),
   (c8_percent_thresholds 75).2.1 (by norm_num) (by norm_num),
   (c8_percent_thresholds (89999 / 1000)).2.1 (by norm_num) (by norm_num),
   (c8_percent_thresholds 90).2.2 (by norm_num)⟩

/-- C9: an insertion whose character index is at or beyond the line's
character count appends the marker at the end of the line and is not an
error. -/
theorem c9_insert_beyond_appends (s : List Char) (q : Nat) (t : List Char)
    (h : q ≥ s.length) : insert_at_char s q t = some (s ++ t) := by
  unfold insert_at_char
  rw [if_pos h]

/-- Witness for C9 on a concrete line: index 5 on the two-character line
"ab" appends. -/
theorem c9_insert_beyond_appends_witness :
    5 ≥ "ab".data.length ∧ insert_at_char "ab".data 5 "x".data = some ("ab".data ++ "x".data) :=
  ⟨by decide, c9_insert_beyond_appends "ab".data 5 "x".data (by decide)⟩

/-! ## src/coverage_data.rs

The report uses positional fixed-arity arrays: 6 fields for a segment,
8 for a function region, 9 for a branch region.  The custom `Deserialize`
impls first deserialize a `[Value; N]` (a structured serde error on a
non-array or on wrong arity) and then run the `From<[Value; N]>`
conversion, which reads each field with `as_i64().unwrap()` or
`as_bool().unwrap()` — a panic, not a structured error, on a field of the
wrong type.  The panic is modelled by the inner `Option`. -/

/-- Model of the `serde_json::Value`s the decoders inspect.  `num` holds
an integer-valued JSON number (the only kind on which `as_i64`
succeeds); non-integer numbers behave like any other non-`num` value as
far as `as_i64`/`as_bool` are concerned. -/
inductive JValue where
  | null : JValue
  | bool (b : Bool) : JValue
  | num (n : Int) : JValue
  | str (s : List Char) : JValue
  | arr (l : List JValue) : JValue

/-- Model of `serde_json::Value::as_i64`. -/
def JValue.as_i64 : JValue → Option Int
  | .num n => if -(2 ^ 63) ≤ n ∧ n < 2 ^ 63 then some n else none
  | _ => none

/-- Model of `serde_json::Value::as_bool`. -/
def JValue.as_bool : JValue → Option Bool
  | .bool b => some b
  | _ => none

/-- The `FileSegment` struct of src/coverage_data.rs. -/
structure FileSegment where
  line : Int
  col : Int
  count : Int
  has_count : Bool
  is_region_entry : Bool
  is_gap_region : Bool
  deriving DecidableEq, Repr

/-- The `Region` struct (8-field function region) of src/coverage_data.rs. -/
structure Region where
  line_start : Int
  column_start : Int
  line_end : Int
  column_end : Int
  execution_count : Int
  file_id : Int
  expanded_file_id : Int
  region_kind : Int
  deriving DecidableEq, Repr

/-- The `FileBranch` struct (9-field branch region) of src/coverage_data.rs. -/
structure FileBranch where
  line_start : Int
  column_start : Int
  line_end : Int
  column_end : Int
  execution_count : Int
  false_execution_count : Int
  file_id : Int
  expanded_file_id : Int
  region_kind : Int
  deriving DecidableEq, Repr

/-- The `From<[Value; 6]> for FileSegment` conversion: unwraps each field
in declaration order; `none` models the `unwrap` panic on a field of the
wrong type.  The wildcard arm is unreachable from the deserializer, which
guarantees exactly six values. -/
def fileSegmentOfValues : List JValue → Option FileSegment
  | [a, b, c, d, e, f] =>
    a.as_i64.bind fun line =>
    b.as_i64.bind fun col =>
    c.as_i64.bind fun count =>
    d.as_bool.bind fun hc =>
    e.as_bool.bind fun re =>
    f.as_bool.bind fun gap =>
    some ⟨line, col, count, hc, re, gap⟩
  | _ => none

/-- The `From<[Value; 8]> for Region` conversion. -/
def regionOfValues : List JValue → Option Region
  | [a, b, c, d, e, f, g, h] =>
    a.as_i64.bind fun v0 =>
    b.as_i64.bind fun v1 =>
    c.as_i64.bind fun v2 =>
    d.as_i64.bind fun v3 =>
    e.as_i64.bind fun v4 =>
    f.as_i64.bind fun v5 =>
    g.as_i64.bind fun v6 =>
    h.as_i64.bind fun v7 =>
    some ⟨v0, v1, v2, v3, v4, v5, v6, v7⟩
  | _ => none

/-- The `From<[Value; 9]> for FileBranch` conversion. -/
def fileBranchOfValues : List JValue → Option FileBranch
  | [a, b, c, d, e, f, g, h, i] =>
    a.as_i64.bind fun v0 =>
    b.as_i64.bind fun v1 =>
    c.as_i64.bind fun v2 =>
    d.as_i64.bind fun v3 =>
    e.as_i64.bind fun v4 =>
    f.as_i64.bind fun v5 =>
    g.as_i64.bind fun v6 =>
    h.as_i64.bind fun v7 =>
    i.as_i64.bind fun v8 =>
    some ⟨v0, v1, v2, v3, v4, v5, v6, v7, v8⟩
  | _ => none

/-- Model of `<[Value; n]>::deserialize`: a structured serde error unless
the value is an array of exactly `n` elements. -/
def deserArray (n : Nat) (v : JValue) : Except (List Char) (List JValue) :=
  match v with
  | .arr l => if l.length = n then .ok l else .error "invalid length".data
  | _ => .error "invalid type: expected an array".data

/-- The `Deserialize for FileSegment` impl: `[Value; 6]` then `From`. -/
def fileSegmentDeser (v : JValue) : Except (List Char) (Option FileSegment) :=
  (deserArray 6 v).map fileSegmentOfValues

/-- The `Deserialize for Region` impl: `[Value; 8]` then `From`. -/
def regionDeser (v : JValue) : Except (List Char) (Option Region) :=
  (deserArray 8 v).map regionOfValues

/-- The `Deserialize for FileBranch` impl: `[Value; 9]` then `From`. -/
def fileBranchDeser (v : JValue) : Except (List Char) (Option FileBranch) :=
  (deserArray 9 v).map fileBranchOfValues

/-- C5 counterexample: the claim states that a positional array whose
field types mismatch the declared encoding fails with a structured error
and does not crash.  A six-element array whose first field is a string
passes the arity check and then panics inside `From`'s
`as_i64().unwrap()` (the inner `none`), so the result is a crash, not a
structured error. -/
theorem c5_type_mismatch_is_crash :
    fileSegmentDeser
      (.arr [.str "x".data, .num 1, .num 1, .bool true, .bool true, .bool false]) =
      .ok none := rfl

/-- The segment `From` conversion panics whenever any of its six fields
has the wrong type: its `unwrap` chain reads the three integer fields
and three boolean fields in order, and the first failing accessor
aborts. -/
theorem fileSegmentOfValues_none (a b c d e f : JValue)
    (h : a.as_i64 = none ∨ b.as_i64 = none ∨ c.as_i64 = none ∨
      d.as_bool = none ∨ e.as_bool = none ∨ f.as_bool = none) :
    fileSegmentOfValues [a, b, c, d, e, f] = none := by
  cases ha : a.as_i64 with
  | none => simp [fileSegmentOfValues, ha]
  | some va =>
  cases hb : b.as_i64 with
  | none => simp [fileSegmentOfValues, ha, hb]
  | some vb =>
  cases hc : c.as_i64 with
  | none => simp [fileSegmentOfValues, ha, hb, hc]
  | some vc =>
  cases hd : d.as_bool with
  | none => simp [fileSegmentOfValues, ha, hb, hc, hd]
  | some vd =>
  cases he : e.as_bool with
  | none => simp [fileSegmentOfValues, ha, hb, hc, hd, he]
  | some ve =>
  cases hf : f.as_bool with
  | none => simp [fileSegmentOfValues, ha, hb, hc, hd, he, hf]
  | some vf =>
  rcases h with h | h | h | h | h | h <;> simp_all

/-- The function-region `From` conversion panics whenever any of its
eight integer fields has the wrong type. -/
theorem regionOfValues_none (a0 a1 a2 a3 a4 a5 a6 a7 : JValue)
    (h : a0.as_i64 = none ∨ a1.as_i64 = none ∨ a2.as_i64 = none ∨
      a3.as_i64 = none ∨ a4.as_i64 = none ∨ a5.as_i64 = none ∨
      a6.as_i64 = none ∨ a7.as_i64 = none) :
    regionOfValues [a0, a1, a2, a3, a4, a5, a6, a7] = none := by
  cases h0 : a0.as_i64 with
  | none => simp [regionOfValues, h0]
  | some v0 =>
  cases h1 : a1.as_i64 with
  | none => simp [regionOfValues, h0, h1]
  | some v1 =>
  cases h2 : a2.as_i64 with
  | none => simp [regionOfValues, h0, h1, h2]
  | some v2 =>
  cases h3 : a3.as_i64 with
  | none => simp [regionOfValues, h0, h1, h2, h3]
  | some v3 =>
  cases h4 : a4.as_i64 with
  | none => simp [regionOfValues, h0, h1, h2, h3, h4]
  | some v4 =>
  cases h5 : a5.as_i64 with
  | none => simp [regionOfValues, h0, h1, h2, h3, h4, h5]
  | some v5 =>
  cases h6 : a6.as_i64 with
  | none => simp [regionOfValues, h0, h1, h2, h3, h4, h5, h6]
  | some v6 =>
  cases h7 : a7.as_i64 with
  | none => simp [regionOfValues, h0, h1, h2, h3, h4, h5, h6, h7]
  | some v7 =>
  rcases h with h | h | h | h | h | h | h | h <;> simp_all

/-- The branch-region `From` conversion panics whenever any of its nine
integer fields has the wrong type. -/
theorem fileBranchOfValues_none (a0 a1 a2 a3 a4 a5 a6 a7 a8 : JValue)
    (h : a0.as_i64 = none ∨ a1.as_i64 = none ∨ a2.as_i64 = none ∨
      a3.as_i64 = none ∨ a4.as_i64 = none ∨ a5.as_i64 = none ∨
      a6.as_i64 = none ∨ a7.as_i64 = none ∨ a8.as_i64 = none) :
    fileBranchOfValues [a0, a1, a2, a3, a4, a5, a6, a7, a8] = none := by
  cases h0 : a0.as_i64 with
  | none => simp [fileBranchOfValues, h0]
  | some v0 =>
  cases h1 : a1.as_i64 with
  | none => simp [fileBranchOfValues, h0, h1]
  | some v1 =>
  cases h2 : a2.as_i64 with
  | none => simp [fileBranchOfValues, h0, h1, h2]
  | some v2 =>
  cases h3 : a3.as_i64 with
  | none => simp [fileBranchOfValues, h0, h1, h2, h3]
  | some v3 =>
  cases h4 : a4.as_i64 with
  | none => simp [fileBranchOfValues, h0, h1, h2, h3, h4]
  | some v4 =>
  cases h5 : a5.as_i64 with
  | none => simp [fileBranchOfValues, h0, h1, h2, h3, h4, h5]
  | some v5 =>
  cases h6 : a6.as_i64 with
  | none => simp [fileBranchOfValues, h0, h1, h2, h3, h4, h5, h6]
  | some v6 =>
  cases h7 : a7.as_i64 with
  | none => simp [fileBranchOfValues, h0, h1, h2, h3, h4, h5, h6, h7]
  | some v7 =>
  cases h8 : a8.as_i64 with
  | none => simp [fileBranchOfValues, h0, h1, h2, h3, h4, h5, h6, h7, h8]
  | some v8 =>
  rcases h with h | h | h | h | h | h | h | h | h <;> simp_all

/-- C5 amended: an arity mismatch (or a non-array) is reported as a
structured error for each of the three encodings, but a correct-arity
array any of whose fields has the wrong type — an integer field that is
not an integer, or a boolean field that is not a boolean, in any of the
three encodings — crashes (panics) in the `From` conversion instead of
producing a structured error. -/
theorem c5_malformed_array_amended (v : JValue) :
    ((∀ l, v = .arr l → l.length ≠ 6) → ∃ e, fileSegmentDeser v = .error e) ∧
    ((∀ l, v = .arr l → l.length ≠ 8) → ∃ e, regionDeser v = .error e) ∧
    ((∀ l, v = .arr l → l.length ≠ 9) → ∃ e, fileBranchDeser v = .error e) ∧
    (∀ a b c d e f, v = .arr [a, b, c, d, e, f] →
      (a.as_i64 = none ∨ b.as_i64 = none ∨ c.as_i64 = none ∨
        d.as_bool = none ∨ e.as_bool = none ∨ f.as_bool = none) →
      fileSegmentDeser v = .ok none) ∧
    (∀ a0 a1 a2 a3 a4 a5 a6 a7, v = .arr [a0, a1, a2, a3, a4, a5, a6, a7] →
      (a0.as_i64 = none ∨ a1.as_i64 = none ∨ a2.as_i64 = none ∨
        a3.as_i64 = none ∨ a4.as_i64 = none ∨ a5.as_i64 = none ∨
        a6.as_i64 = none ∨ a7.as_i64 = none) →
      regionDeser v = .ok none) ∧
    (∀ a0 a1 a2 a3 a4 a5 a6 a7 a8, v = .arr [a0, a1, a2, a3, a4, a5, a6, a7, a8] →
      (a0.as_i64 = none ∨ a1.as_i64 = none ∨ a2.as_i64 = none ∨
        a3.as_i64 = none ∨ a4.as_i64 = none ∨ a5.as_i64 = none ∨
        a6.as_i64 = none ∨ a7.as_i64 = none ∨ a8.as_i64 = none) →
      fileBranchDeser v = .ok none) := by
  refine ⟨?_, ?_, ?_, ?_, ?_, ?_⟩
  · intro h
    cases v with
    | arr l =>
      have := h l rfl
      refine ⟨"invalid length".data, ?_⟩
      simp [fileSegmentDeser, deserArray, this, Except.map]
    | null => exact ⟨_, rfl⟩
    | bool b => exact ⟨_, rfl⟩
    | num n => exact ⟨_, rfl⟩
    | str s => exact ⟨_, rfl⟩
  · intro h
    cases v with
    | arr l =>
      have := h l rfl
      refine ⟨"invalid length".data, ?_⟩
      simp [regionDeser, deserArray, this, Except.map]
    | null => exact ⟨_, rfl⟩
    | bool b => exact ⟨_, rfl⟩
    | num n => exact ⟨_, rfl⟩
    | str s => exact ⟨_, rfl⟩
  · intro h
    cases v with
    | arr l =>
      have := h l rfl
      refine ⟨"invalid length".data, ?_⟩
      simp [fileBranchDeser, deserArray, this, Except.map]
    | null => exact ⟨_, rfl⟩
    | bool b => exact ⟨_, rfl⟩
    | num n => exact ⟨_, rfl⟩
    | str s => exact ⟨_, rfl⟩
  · intro a b c d e f hv hmm
    subst hv
    show Except.map fileSegmentOfValues (deserArray 6 (.arr [a, b, c, d, e, f])) =
      .ok none
    rw [show deserArray 6 (JValue.arr [a, b, c, d, e, f]) =
      .ok [a, b, c, d, e, f] from rfl]
    rw [show Except.map fileSegmentOfValues
        (.ok [a, b, c, d, e, f] : Except (List Char) (List JValue)) =
      .ok (fileSegmentOfValues [a, b, c, d, e, f]) from rfl]
    rw [fileSegmentOfValues_none a b c d e f hmm]
  · intro a0 a1 a2 a3 a4 a5 a6 a7 hv hmm
    subst hv
    show Except.map regionOfValues
      (deserArray 8 (.arr [a0, a1, a2, a3, a4, a5, a6, a7])) = .ok none
    rw [show deserArray 8 (JValue.arr [a0, a1, a2, a3, a4, a5, a6, a7]) =
      .ok [a0, a1, a2, a3, a4, a5, a6, a7] from rfl]
    rw [show Except.map regionOfValues
        (.ok [a0, a1, a2, a3, a4, a5, a6, a7] : Except (List Char) (List JValue)) =
      .ok (regionOfValues [a0, a1, a2, a3, a4, a5, a6, a7]) from rfl]
    rw [regionOfValues_none a0 a1 a2 a3 a4 a5 a6 a7 hmm]
  · intro a0 a1 a2 a3 a4 a5 a6 a7 a8 hv hmm
    subst hv
    show Except.map fileBranchOfValues
      (deserArray 9 (.arr [a0, a1, a2, a3, a4, a5, a6, a7, a8])) = .ok none
    rw [show deserArray 9 (JValue.arr [a0, a1, a2, a3, a4, a5, a6, a7, a8]) =
      .ok [a0, a1, a2, a3, a4, a5, a6, a7, a8] from rfl]
    rw [show Except.map fileBranchOfValues
        (.ok [a0, a1, a2, a3, a4, a5, a6, a7, a8] : Except (List Char) (List JValue)) =
      .ok (fileBranchOfValues [a0, a1, a2, a3, a4, a5, a6, a7, a8]) from rfl]
    rw [fileBranchOfValues_none a0 a1 a2 a3 a4 a5 a6 a7 a8 hmm]

/-- Witness for C5 amended at concrete inputs: the empty array fails all
three arity checks with a structured error; a segment array whose fourth
field is a number where a boolean belongs, a region array whose sixth
field is a string, and a branch array whose last field is a boolean all
crash. -/
theorem c5_malformed_array_amended_witness :
    (∃ e, fileSegmentDeser (.arr []) = .error e) ∧
    (∃ e, regionDeser (.arr []) = .error e) ∧
    (∃ e, fileBranchDeser (.arr []) = .error e) ∧
    fileSegmentDeser
      (.arr [.num 1, .num 2, .num 3, .num 4, .bool true, .bool false]) =
      .ok none ∧
    regionDeser
      (.arr [.num 1, .num 1, .num 1, .num 1, .num 1, .str "x".data, .num 1, .num 1]) =
      .ok none ∧
    fileBranchDeser
      (.arr [.num 1, .num 1, .num 1, .num 1, .num 1, .num 1, .num 1, .num 1,
        .bool true]) =
      .ok none := by
  refine ⟨?_, ?_, ?_, ?_, ?_, ?_⟩
  · exact (c5_malformed_array_amended (.arr [])).1
      (by intro l h; injection h with h'; subst h'; decide)
  · exact (c5_malformed_array_amended (.arr [])).2.1
      (by intro l h; injection h with h'; subst h'; decide)
  · exact (c5_malformed_array_amended (.arr [])).2.2.1
      (by intro l h; injection h with h'; subst h'; decide)
  · exact (c5_malformed_array_amended _).2.2.2.1 _ _ _ _ _ _ rfl (by decide)
  · exact (c5_malformed_array_amended _).2.2.2.2.1 _ _ _ _ _ _ _ _ rfl (by decide)
  · exact (c5_malformed_array_amended _).2.2.2.2.2 _ _ _ _ _ _ _ _ _ rfl (by decide)

/-! ## src/render/file.rs : segment collapse

The render loop first collapses the file's ordered point segments into
closed spans (struct `Seg`): a region-entry segment pushes a new span, a
non-entry segment mutates the last pushed span (`segments.last_mut()
.unwrap()` — a panic when no span is open, modelled by `none`), extending
its stop position and adding its count with Rust's 64-bit integer
addition (wrapping in the release profile). -/

/-- Two's-complement wrap of an integer to 64 bits. -/
def wrap64 (n : Int) : Int := (n + 2 ^ 63) % 2 ^ 64 - 2 ^ 63

/-- Wrapping 64-bit signed addition (Rust release-profile `i64 +`). -/
def i64add (a b : Int) : Int := wrap64 (a + b)

/-- The collapsed span (struct `Seg` in src/render/file.rs). -/
structure Seg where
  start_col : Int
  stop_col : Int
  start_row : Int
  stop_row : Int
  count : Int
  deriving DecidableEq, Repr

/-- The span pushed for a region-entry segment. -/
def pushSeg (s : FileSegment) : Seg :=
  { start_col := s.col, stop_col := s.col, start_row := s.line,
    stop_row := s.line, count := s.count }

/-- The in-place mutation applied to the currently open span by a
non-entry segment. -/
def extendSeg (c : Seg) (s : FileSegment) : Seg :=
  { c with stop_col := s.col, stop_row := s.line, count := i64add c.count s.count }

/-- The `segments.last_mut().unwrap()` branch: update the last pushed
span; `none` models the `unwrap` panic on an empty vector. -/
def extendLast : List Seg → FileSegment → Option (List Seg)
  | [], _ => none
  | [c], s => some [extendSeg c s]
  | x :: y :: xs, s => (extendLast (y :: xs) s).map (fun l => x :: l)

/-- One iteration of the collapse loop of `RenderFile::render`. -/
def collapseStep (acc : Option (List Seg)) (s : FileSegment) : Option (List Seg) :=
  match acc with
  | none => none
  | some l => if s.is_region_entry then some (l ++ [pushSeg s]) else extendLast l s

/-- The collapse loop of `RenderFile::render`, producing spans in
emission order. -/
def collapse (segs : List FileSegment) : Option (List Seg) :=
  segs.foldl collapseStep (some [])

/-- The reversal performed by `RenderFile::render` (line 82) before the
marker-insertion loop: the span list the annotator consumes, whose index
0 is the last span in original file order. -/
def renderOrder (segs : List FileSegment) : Option (List Seg) :=
  (collapse segs).map List.reverse

/-- Modelled from the spec (section 4.1): each region-entry segment,
together with the immediately following non-entry segments up to the next
region-entry or the end of the list, yields one span; this accumulates
one such group onto an open span. -/
def extendGroup : Seg → List FileSegment → Seg
  | c, [] => c
  | c, s :: rest => extendGroup (extendSeg c s) rest

theorem dropWhile_length_le {α : Type} (p : α → Bool) (l : List α) :
    (l.dropWhile p).length ≤ l.length := by
  induction l with
  | nil => simp [List.dropWhile]
  | cons x xs ih =>
    by_cases hx : p x
    · rw [List.dropWhile_cons_of_pos hx]
      simp
      omega
    · rw [List.dropWhile_cons_of_neg hx]

/-- Modelled from the spec (section 4.1): the collapsed span sequence,
one span per region-entry segment, in input order, each aggregating its
group of following non-entry segments. -/
def collapseSpec : List FileSegment → List Seg
  | [] => []
  | s :: rest =>
    extendGroup (pushSeg s) (rest.takeWhile (fun t => !t.is_region_entry)) ::
      collapseSpec (rest.dropWhile (fun t => !t.is_region_entry))
termination_by l => l.length
decreasing_by
  simp only [List.length_cons]
  exact Nat.lt_succ_of_le (dropWhile_length_le _ _)

theorem foldl_collapseStep_none (l : List FileSegment) :
    l.foldl collapseStep none = none := by
  induction l with
  | nil => rfl
  | cons s rest ih => simpa [List.foldl, collapseStep] using ih

theorem extendLast_snoc (acc : List Seg) (c : Seg) (s : FileSegment) :
    extendLast (acc ++ [c]) s = some (acc ++ [extendSeg c s]) := by
  induction acc with
  | nil => rfl
  | cons x xs ih =>
    cases xs with
    | nil => rfl
    | cons y ys =>
      show Option.map (fun l => x :: l) (extendLast ((y :: ys) ++ [c]) s) =
        some (x :: ((y :: ys) ++ [extendSeg c s]))
      rw [ih]
      rfl

theorem foldl_collapseStep_group (grp : List FileSegment)
    (hgrp : ∀ t ∈ grp, t.is_region_entry = false)
    (rest : List FileSegment) (acc : List Seg) (c : Seg) :
    (grp ++ rest).foldl collapseStep (some (acc ++ [c])) =
      rest.foldl collapseStep (some (acc ++ [extendGroup c grp])) := by
  induction grp generalizing c with
  | nil => simp [extendGroup]
  | cons s grp' ih =>
    have hs : s.is_region_entry = false := hgrp s (by simp)
    have hrest : ∀ t ∈ grp', t.is_region_entry = false := fun t ht => hgrp t (by simp [ht])
    simp only [List.cons_append, List.foldl_cons]
    have hstep : collapseStep (some (acc ++ [c])) s = some (acc ++ [extendSeg c s]) := by
      simp [collapseStep, hs, extendLast_snoc]
    rw [hstep, ih hrest (extendSeg c s)]
    rfl

theorem head_dropWhile_entry (l : List FileSegment) :
    ∀ s, (l.dropWhile (fun t => !t.is_region_entry)).head? = some s →
      s.is_region_entry = true := by
  induction l with
  | nil => intro s h; simp [List.dropWhile] at h
  | cons x xs ih =>
    intro s h
    by_cases hx : x.is_region_entry
    · rw [List.dropWhile_cons_of_neg (by simp [hx])] at h
      simp at h
      rw [← h]
      exact hx
    · rw [List.dropWhile_cons_of_pos (by simp [hx])] at h
      exact ih s h

theorem collapse_eq_spec_aux :
    ∀ n (segs : List FileSegment), segs.length ≤ n →
      (∀ s, segs.head? = some s → s.is_region_entry = true) →
      ∀ acc : List Seg,
        segs.foldl collapseStep (some acc) = some (acc ++ collapseSpec segs) := by
  intro n
  induction n with
  | zero =>
    intro segs hlen _ acc
    have : segs = [] := List.length_eq_zero.mp (by omega)
    subst this
    simp [collapseSpec]
  | succ n ih =>
    intro segs hlen hhead acc
    cases segs with
    | nil => simp [collapseSpec]
    | cons s rest =>
      have hs : s.is_region_entry = true := hhead s rfl
      simp only [List.foldl_cons]
      have hstep : collapseStep (some acc) s = some (acc ++ [pushSeg s]) := by
        simp [collapseStep, hs]
      rw [hstep]
      have hsplit : rest = rest.takeWhile (fun t => !t.is_region_entry) ++
          rest.dropWhile (fun t => !t.is_region_entry) :=
        (List.takeWhile_append_dropWhile _ _).symm
      have htw : ∀ t ∈ rest.takeWhile (fun t => !t.is_region_entry),
          t.is_region_entry = false := by
        intro t ht
        have := List.mem_takeWhile_imp ht
        simpa using this
      conv_lhs => rw [hsplit]
      rw [foldl_collapseStep_group _ htw _ acc (pushSeg s)]
      have hdrop : (rest.dropWhile (fun t => !t.is_region_entry)).length ≤ n := by
        have h1 := dropWhile_length_le (fun t : FileSegment => !t.is_region_entry) rest
        have h2 : rest.length + 1 ≤ n + 1 := by simpa using hlen
        omega
      rw [ih _ hdrop (head_dropWhile_entry rest)]
      rw [collapseSpec]
      simp

/-- Refinement of the collapse loop by the spec's description, shared by
the claims about the collapser: on every segment list whose first segment
(if any) is a region entry, the loop succeeds and emits exactly the
spec's span sequence. -/
theorem collapse_eq_spec (segs : List FileSegment)
    (h : ∀ s, segs.head? = some s → s.is_region_entry = true) :
    collapse segs = some (collapseSpec segs) := by
  have := collapse_eq_spec_aux segs.length segs le_rfl h []
  simpa [collapse] using this

theorem collapseSpec_length (segs : List FileSegment)
    (h : ∀ s, segs.head? = some s → s.is_region_entry = true) :
    (collapseSpec segs).length =
      (segs.filter (fun s => s.is_region_entry)).length := by
  generalize hn : segs.length = n
  induction n using Nat.strong_induction_on generalizing segs with
  | _ n ih =>
    cases segs with
    | nil => simp [collapseSpec]
    | cons s rest =>
      have hs : s.is_region_entry = true := h s rfl
      rw [collapseSpec]
      have hsplit : rest = rest.takeWhile (fun t => !t.is_region_entry) ++
          rest.dropWhile (fun t => !t.is_region_entry) :=
        (List.takeWhile_append_dropWhile _ _).symm
      have htw : ∀ t ∈ rest.takeWhile (fun t => !t.is_region_entry),
          t.is_region_entry = false := by
        intro t ht
        have := List.mem_takeWhile_imp ht
        simpa using this
      have hfiltw : (rest.takeWhile (fun t => !t.is_region_entry)).filter
          (fun s => s.is_region_entry) = [] := by
        rw [List.filter_eq_nil_iff]
        intro t ht
        simp [htw t ht]
      have hdlen : (rest.dropWhile (fun t => !t.is_region_entry)).length < n := by
        have h1 := dropWhile_length_le (fun t : FileSegment => !t.is_region_entry) rest
        simp at hn
        omega
      have hrec := ih _ hdlen (rest.dropWhile (fun t => !t.is_region_entry))
        (head_dropWhile_entry rest) rfl
      conv_rhs => rw [List.filter_cons, if_pos (by simp [hs])]
      conv_rhs => rw [hsplit]
      rw [List.filter_append, hfiltw]
      simp [hrec]

/-- C3 counterexample: the claim states each span's count equals the sum
of its constituent segments' counts.  The loop adds counts with 64-bit
integer addition, which wraps in the release profile, so an entry with
count 2^63 - 1 followed by a non-entry with count 1 produces the span
count -2^63, not the sum 2^63 (a debug build panics on the same input —
either way the stated sum is not produced). -/
theorem c3_sum_counterexample :
    collapse [⟨1, 1, 2 ^ 63 - 1, true, true, false⟩, ⟨1, 2, 1, true, false, false⟩] =
      some [⟨1, 2, 1, 1, -(2 ^ 63)⟩] ∧
    (-(2 ^ 63) : Int) ≠ (2 ^ 63 - 1) + 1 := by
  constructor
  · decide
  · decide

/-- C3 amended: for every segment list whose first segment is a region
entry, the collapser succeeds and produces exactly the spec-side span
sequence — one span per region-entry segment, in the same relative order,
each aggregating its own count and every immediately following non-entry
segment's count with 64-bit wrapping addition — and in particular exactly
as many spans as region-entry segments; a list of zero segments yields
zero spans. -/
theorem c3_collapse_amended (segs : List FileSegment)
    (h : ∀ s, segs.head? = some s → s.is_region_entry = true) :
    collapse segs = some (collapseSpec segs) ∧
    (collapseSpec segs).length =
      (segs.filter (fun s => s.is_region_entry)).length :=
  ⟨collapse_eq_spec segs h, collapseSpec_length segs h⟩

/-- Witness for C3 amended on the spec's section 8 scenario: two entries,
one trailing non-entry for the first, giving two spans with counts 5 and
3. -/
theorem c3_collapse_amended_witness :
    collapse [⟨1, 1, 5, true, true, false⟩, ⟨1, 10, 0, true, false, false⟩,
        ⟨2, 1, 3, true, true, false⟩] =
      some (collapseSpec [⟨1, 1, 5, true, true, false⟩, ⟨1, 10, 0, true, false, false⟩,
        ⟨2, 1, 3, true, true, false⟩]) ∧
    (collapseSpec [⟨1, 1, 5, true, true, false⟩, ⟨1, 10, 0, true, false, false⟩,
        ⟨2, 1, 3, true, true, false⟩]).length =
      ([⟨1, 1, 5, true, true, false⟩, ⟨1, 10, 0, true, false, false⟩,
        ⟨2, 1, 3, true, true, false⟩].filter
          (fun s : FileSegment => s.is_region_entry)).length :=
  c3_collapse_amended _ (by intro s hs; injection hs with h1; rw [← h1])

/-- C6: a segment list beginning with a non-entry segment is rejected:
the loop hits `segments.last_mut().unwrap()` with no open span and
panics (modelled as `none`) rather than ignoring the segment or emitting
spans. -/
theorem c6_leading_nonentry_rejected (s : FileSegment) (rest : List FileSegment)
    (h : s.is_region_entry = false) : collapse (s :: rest) = none := by
  unfold collapse
  simp only [List.foldl_cons]
  have hstep : collapseStep (some []) s = none := by
    simp [collapseStep, h, extendLast]
  rw [hstep]
  exact foldl_collapseStep_none rest

/-- Witness for C6 on a concrete leading non-entry segment. -/
theorem c6_leading_nonentry_rejected_witness :
    collapse [(⟨1, 1, 0, true, false, false⟩ : FileSegment)] = none :=
  c6_leading_nonentry_rejected ⟨1, 1, 0, true, false, false⟩ [] rfl

/-- C7: the span list the annotator consumes is the reverse of the
collapser's emission order: rendering index 0 is the last emitted span,
and rendering index i is the span at emission index length - 1 - i. -/
theorem c7_reversed_order (segs : List FileSegment) (l : List Seg)
    (h : collapse segs = some l) :
    renderOrder segs = some l.reverse ∧
    ∀ i (hi : i < l.reverse.length),
      l.reverse.get ⟨i, hi⟩ =
        l.get ⟨l.length - 1 - i, by simp at hi; omega⟩ := by
  constructor
  · simp [renderOrder, h]
  · intro i hi
    simp only [List.get_eq_getElem]
    exact List.getElem_reverse hi

/-- Witness for C7 on two single-segment spans: rendering index 0 is the
second (last in file order) span. -/
theorem c7_reversed_order_witness :
    renderOrder [⟨1, 1, 5, true, true, false⟩, ⟨2, 1, 3, true, true, false⟩] =
      some ([⟨1, 1, 1, 1, 5⟩, ⟨1, 1, 2, 2, 3⟩] : List Seg).reverse ∧
    ([⟨1, 1, 1, 1, 5⟩, ⟨1, 1, 2, 2, 3⟩] : List Seg).reverse.get ⟨0, by decide⟩ =
      ([⟨1, 1, 1, 1, 5⟩, ⟨1, 1, 2, 2, 3⟩] : List Seg).get ⟨1, by decide⟩ := by
  have h := c7_reversed_order
    [⟨1, 1, 5, true, true, false⟩, ⟨2, 1, 3, true, true, false⟩]
    [⟨1, 1, 1, 1, 5⟩, ⟨1, 1, 2, 2, 3⟩] (by decide)
  exact ⟨h.1, h.2 0 (by decide)⟩

/-! ## src/render/file.rs : marker insertion (the Source Annotator)

The render loop walks the reversed span list with `enumerate` and mutates
the file's lines in place, inserting textual markers
`{{ start_segment i c }}` and `{{ end_segment }}` at character indexes
via `insert_at_char`.  Line indexing (`lines[row - 1]`) panics when out
of bounds, modelled by `none`. -/

/-- Decimal digit character. -/
def digitChar (d : Nat) : Char := Char.ofNat (48 + d)

/-- Fuelled decimal rendering of a natural number. -/
def natCharsF : Nat → Nat → List Char
  | 0, _ => []
  | f + 1, n =>
    if n < 10 then [digitChar n]
    else natCharsF f (n / 10) ++ [digitChar (n % 10)]

/-- Decimal rendering of a natural number (model of Rust's `Display` for
integers). -/
def natChars (n : Nat) : List Char := natCharsF (n + 1) n

/-- Decimal rendering of an i64 value, with sign. -/
def intChars (i : Int) : List Char :=
  if i < 0 then '-' :: natChars (-i).toNat else natChars i.toNat

/-- The end marker string inserted by the render loop. -/
def endMarker : List Char := "\x7b\x7b end_segment \x7d\x7d".data

/-- The begin marker string for span index `i` with count `c` (the
source's `format!("{{{{ start_segment {} {} }}}}", seg_idx, count)`). -/
def startMarker (i : Nat) (c : Int) : List Char :=
  "\x7b\x7b start_segment ".data ++ natChars i ++ [' '] ++ intChars c ++ " \x7d\x7d".data

/-- The 0-based line index computed from a 1-based i64 row: the source's
`segment.start_row as usize - 1` with wrapping cast semantics. -/
def rowIdx (r : Int) : Nat := usizeOfInt (r - 1)

/-- Apply a fallible edit to line `r`; `none` models the index panic of
`lines[r]` when `r` is out of bounds. -/
def modifyLine (ls : List (List Char)) (r : Nat) (f : List Char → Option (List Char)) :
    Option (List (List Char)) :=
  if h : r < ls.length then (f (ls.get ⟨r, h⟩)).map (fun l => ls.set r l) else none

/-- The intermediate rows `(start_row + 1)..stop_row` of a multi-line
span. -/
def midRows (sg : Seg) : List Int :=
  (List.range (sg.stop_row - sg.start_row - 1).toNat).map
    (fun (k : Nat) => sg.start_row + 1 + (k : Int))

/-- Marker insertion for the intermediate rows of a multi-line span:
append an end marker and insert a begin marker at character index 0. -/
def annotateMid (idx : Nat) (sg : Seg) : List Int → List (List Char) → Option (List (List Char))
  | [], ls => some ls
  | r :: rs, ls =>
    (modifyLine ls (rowIdx r) (fun l => some (l ++ endMarker))).bind fun ls1 =>
    (modifyLine ls1 (rowIdx r)
      (fun l => insert_at_char l 0 (startMarker idx sg.count))).bind fun ls2 =>
    annotateMid idx sg rs ls2

/-- Marker insertion for one span: one iteration of the render loop. -/
def annotateSpan (ls : List (List Char)) (idx : Nat) (sg : Seg) :
    Option (List (List Char)) :=
  if sg.start_row = sg.stop_row then
    (modifyLine ls (rowIdx sg.start_row)
      (fun l => insert_at_char l (usizeOfInt sg.stop_col) endMarker)).bind fun ls1 =>
    modifyLine ls1 (rowIdx sg.start_row)
      (fun l => insert_at_char l (usizeOfInt sg.start_col) (startMarker idx sg.count))
  else
    (modifyLine ls (rowIdx sg.start_row) (fun l => some (l ++ endMarker))).bind fun ls1 =>
    (modifyLine ls1 (rowIdx sg.start_row)
      (fun l => insert_at_char l (usizeOfInt sg.start_col) (startMarker idx sg.count))).bind fun ls2 =>
    (modifyLine ls2 (rowIdx sg.stop_row)
      (fun l => insert_at_char l (usizeOfInt sg.stop_col) endMarker)).bind fun ls3 =>
    (modifyLine ls3 (rowIdx sg.stop_row)
      (fun l => insert_at_char l 0 (startMarker idx sg.count))).bind fun ls4 =>
    annotateMid idx sg (midRows sg) ls4

/-- The enumerated marker-insertion loop over the reversed span list. -/
def annotateAll : List (Nat × Seg) → List (List Char) → Option (List (List Char))
  | [], ls => some ls
  | (i, sg) :: rest, ls => (annotateSpan ls i sg).bind (annotateAll rest)

/-- The annotation phase of `RenderFile::render`: collapse the segments,
reverse, enumerate, and insert all markers into the file's lines. -/
def renderMarkedLines (ls : List (List Char)) (segs : List FileSegment) :
    Option (List (List Char)) :=
  (renderOrder segs).bind fun spans => annotateAll spans.enum ls

/-! ## Removing markers (the round-trip of spec section 8)

`strip` removes every occurrence of a marker string — the end marker, or
a begin marker `{{ start_segment i c }}` for any decimal (possibly
negative) values — in one left-to-right pass. -/

/-- Decimal digit test. -/
def isDigitCh (c : Char) : Bool := 48 ≤ c.val.toNat && c.val.toNat ≤ 57

/-- Consume an exact literal, returning the remainder. -/
def matchLit : List Char → List Char → Option (List Char)
  | [], rest => some rest
  | _ :: _, [] => none
  | p :: ps, c :: cs => if c = p then matchLit ps cs else none

/-- Consume a nonempty run of decimal digits. -/
def matchDigits (l : List Char) : Option (List Char) :=
  if (l.takeWhile isDigitCh).length = 0 then none
  else some (l.dropWhile isDigitCh)

/-- Consume a decimal numeral with optional leading minus sign. -/
def matchNum (l : List Char) : Option (List Char) :=
  matchDigits (if l.head? = some '-' then l.tail else l)

/-- Recognise one marker string at the head of the text, returning the
remainder after it. -/
def matchMarker (l : List Char) : Option (List Char) :=
  match matchLit endMarker l with
  | some rest => some rest
  | none =>
    (matchLit "\x7b\x7b start_segment ".data l).bind fun r1 =>
    (matchNum r1).bind fun r2 =>
    (matchLit [' '] r2).bind fun r3 =>
    (matchNum r3).bind fun r4 =>
    matchLit " \x7d\x7d".data r4

/-- Fuelled single pass removing every marker occurrence. -/
def stripF : Nat → List Char → List Char
  | 0, l => l
  | _ + 1, [] => []
  | f + 1, a :: rest =>
    match matchMarker (a :: rest) with
    | some r => stripF f r
    | none => a :: stripF f rest

/-- Remove every marker occurrence from a line in one left-to-right
pass. -/
def strip (l : List Char) : List Char := stripF l.length l

/-- C2 counterexample: the file consisting of the single line "ab" with
the single (region-entry) segment at line 1, column 4, count 5.  The
render loop first appends the end marker (index 4 is past the line end),
then the begin-marker insertion at character index 4 lands at byte offset
3 — one character early, inside the just-appended end marker — splitting
it into `{` and `{ end_segment }}`.  The annotated line is
`ab{{{ start_segment 0 5 }}{ end_segment }}` and removing all marker
strings leaves `ab{{ end_segment }}`, not the original line `ab`. -/
theorem c2_roundtrip_counterexample :
    (renderMarkedLines ["ab".data] [⟨1, 4, 5, true, true, false⟩]).map
        (List.map strip) =
      some ["ab\x7b\x7b end_segment \x7d\x7d".data] ∧
    "ab\x7b\x7b end_segment \x7d\x7d".data ≠ "ab".data := by
  constructor
  · decide
  · decide

/-- C10: the filename sanitizer is not injective: the two distinct input
filenames "a/b.rs" and "a_b.rs" flatten to the same output page path
"a_b.rs.html". -/
theorem c10_sanitize_not_injective :
    sanitize_filename "a/b.rs".data = sanitize_filename "a_b.rs".data ∧
    "a/b.rs".data ≠ "a_b.rs".data := by
  constructor
  · decide
  · decide

/-! ## Marker recognition facts -/

theorem digitChar_digit (d : Nat) (h : d < 10) : isDigitCh (digitChar d) = true := by
  interval_cases d <;> decide

theorem natCharsF_spec (f : Nat) : ∀ n, n < f →
    natCharsF f n ≠ [] ∧ ∀ c ∈ natCharsF f n, isDigitCh c = true := by
  induction f with
  | zero => intro n h; omega
  | succ f ih =>
    intro n h
    by_cases h10 : n < 10
    · refine ⟨by simp [natCharsF, h10], ?_⟩
      intro c hc
      simp [natCharsF, h10] at hc
      subst hc
      exact digitChar_digit n h10
    · have hdiv : n / 10 < n := Nat.div_lt_self (by omega) (by omega)
      obtain ⟨hne, hall⟩ := ih (n / 10) (by omega)
      refine ⟨by simp [natCharsF, h10, hne], ?_⟩
      intro c hc
      simp [natCharsF, h10] at hc
      rcases hc with hc | hc
      · exact hall c hc
      · subst hc
        exact digitChar_digit _ (Nat.mod_lt _ (by omega))

theorem natChars_ne_nil (n : Nat) : natChars n ≠ [] :=
  (natCharsF_spec (n + 1) n (by omega)).1

theorem natChars_digits (n : Nat) : ∀ c ∈ natChars n, isDigitCh c = true :=
  (natCharsF_spec (n + 1) n (by omega)).2

theorem digit_ne_dash (c : Char) (h : isDigitCh c = true) : c ≠ '-' := by
  intro he
  subst he
  exact absurd h (by decide)

theorem takeWhile_append_all {α : Type} (p : α → Bool) (xs ys : List α)
    (h : ∀ x ∈ xs, p x = true) :
    (xs ++ ys).takeWhile p = xs ++ ys.takeWhile p := by
  induction xs with
  | nil => simp
  | cons a as ih =>
    simp only [List.cons_append, List.takeWhile_cons, h a (by simp)]
    rw [ih (fun x hx => h x (by simp [hx]))]
    simp

theorem dropWhile_append_all {α : Type} (p : α → Bool) (xs ys : List α)
    (h : ∀ x ∈ xs, p x = true) :
    (xs ++ ys).dropWhile p = ys.dropWhile p := by
  induction xs with
  | nil => simp
  | cons a as ih =>
    simp only [List.cons_append]
    rw [List.dropWhile_cons_of_pos (h a (by simp))]
    exact ih (fun x hx => h x (by simp [hx]))

theorem matchLit_append (p rest : List Char) : matchLit p (p ++ rest) = some rest := by
  induction p with
  | nil => rfl
  | cons a ps ih => simp [matchLit, ih]

theorem digitsRun_take (ds : List Char) (hall : ∀ c ∈ ds, isDigitCh c = true)
    (y : Char) (hy : isDigitCh y = false) (ys : List Char) :
    (ds ++ y :: ys).takeWhile isDigitCh = ds ∧
    (ds ++ y :: ys).dropWhile isDigitCh = y :: ys := by
  constructor
  · rw [takeWhile_append_all isDigitCh ds (y :: ys) hall]
    rw [List.takeWhile_cons_of_neg (by simp [hy])]
    simp
  · rw [dropWhile_append_all isDigitCh ds (y :: ys) hall]
    rw [List.dropWhile_cons_of_neg (by simp [hy])]

/-- A nonempty all-digit run followed by a non-digit is consumed exactly
by `matchNum`. -/
theorem matchNum_numeral (ds : List Char) (hne : ds ≠ [])
    (hall : ∀ c ∈ ds, isDigitCh c = true) (y : Char) (hy : isDigitCh y = false)
    (ys : List Char) : matchNum (ds ++ y :: ys) = some (y :: ys) := by
  obtain ⟨htw, hdw⟩ := digitsRun_take ds hall y hy ys
  obtain ⟨d, ds', rfl⟩ := List.exists_cons_of_ne_nil hne
  have hd := hall d (by simp)
  have hdash : d ≠ '-' := digit_ne_dash d hd
  have hcond : ¬(((d :: ds') ++ y :: ys).head? = some '-') := by
    intro hco
    simp at hco
    exact hdash hco
  unfold matchNum
  rw [if_neg hcond]
  unfold matchDigits
  rw [htw, hdw]
  simp

/-- The rendering of any i64 value followed by a non-digit is consumed
exactly by `matchNum`. -/
theorem matchNum_intChars (i : Int) (y : Char) (hy : isDigitCh y = false)
    (ys : List Char) :
    matchNum (intChars i ++ y :: ys) = some (y :: ys) := by
  unfold intChars
  by_cases hneg : i < 0
  · rw [if_pos hneg]
    obtain ⟨htw, hdw⟩ := digitsRun_take (natChars (-i).toNat) (natChars_digits _) y hy ys
    have hsplit : ('-' :: natChars (-i).toNat) ++ y :: ys =
        '-' :: (natChars (-i).toNat ++ y :: ys) := by simp
    rw [hsplit]
    have hcond : (('-' :: (natChars (-i).toNat ++ y :: ys)).head? = some '-') := rfl
    unfold matchNum
    rw [if_pos hcond]
    simp only [List.tail_cons]
    unfold matchDigits
    rw [htw, hdw]
    simp [natChars_ne_nil]
  · rw [if_neg hneg]
    exact matchNum_numeral _ (natChars_ne_nil _) (natChars_digits _) y hy ys

theorem matchMarker_end_self (rest : List Char) :
    matchMarker (endMarker ++ rest) = some rest := by
  unfold matchMarker
  rw [matchLit_append]

/-- A begin marker followed by anything is consumed exactly by
`matchMarker`. -/
theorem matchMarker_start_self (i : Nat) (c : Int) (rest : List Char) :
    matchMarker (startMarker i c ++ rest) = some rest := by
  have h1 : matchLit endMarker (startMarker i c ++ rest) = none := by
    rw [startMarker]
    simp only [List.append_assoc]
    rfl
  unfold matchMarker
  rw [h1]
  have h2 : matchLit "\x7b\x7b start_segment ".data (startMarker i c ++ rest) =
      some (natChars i ++ [' '] ++ intChars c ++ " \x7d\x7d".data ++ rest) := by
    rw [startMarker]
    simp only [List.append_assoc]
    rw [matchLit_append]
  rw [h2]
  simp only [Option.bind_eq_bind, Option.some_bind]
  have h3 : natChars i ++ [' '] ++ intChars c ++ " \x7d\x7d".data ++ rest =
      natChars i ++ ' ' :: (intChars c ++ " \x7d\x7d".data ++ rest) := by
    simp [List.append_assoc]
  rw [h3, matchNum_numeral _ (natChars_ne_nil i) (natChars_digits i) ' ' (by decide) _]
  simp only [Option.some_bind]
  have h4 : matchLit [' '] (' ' :: (intChars c ++ " \x7d\x7d".data ++ rest)) =
      some (intChars c ++ " \x7d\x7d".data ++ rest) := by
    simp [matchLit]
  rw [h4]
  simp only [Option.some_bind]
  have h5 : intChars c ++ " \x7d\x7d".data ++ rest =
      intChars c ++ ' ' :: ('}' :: '}' :: rest) := by
    simp [List.append_assoc]
  rw [h5, matchNum_intChars c ' ' (by decide) _]
  simp only [Option.some_bind]
  show matchLit " \x7d\x7d".data (' ' :: '}' :: '}' :: rest) = some rest
  rfl

theorem matchMarker_not_brace (a : Char) (l : List Char) (h : a ≠ '{') :
    matchMarker (a :: l) = none := by
  have h1 : matchLit endMarker (a :: l) = none := by
    show matchLit ('{' :: "\x7b end_segment \x7d\x7d".data) (a :: l) = none
    simp [matchLit, h]
  have h2 : matchLit "\x7b\x7b start_segment ".data (a :: l) = none := by
    show matchLit ('{' :: "\x7b start_segment ".data) (a :: l) = none
    simp [matchLit, h]
  unfold matchMarker
  rw [h1, h2]
  rfl

/-- The marker strings the annotator inserts. -/
def IsMarkerStr (m : List Char) : Prop :=
  m = endMarker ∨ ∃ i c, m = startMarker i c

theorem marker_head {m : List Char} (h : IsMarkerStr m) : ∃ t, m = '{' :: t := by
  rcases h with h | ⟨i, c, h⟩
  · exact ⟨"\x7b end_segment \x7d\x7d".data, by rw [h]; rfl⟩
  · refine ⟨"\x7b start_segment ".data ++ natChars i ++ [' '] ++ intChars c ++ " \x7d\x7d".data, ?_⟩
    rw [h, startMarker]
    simp [List.append_assoc]

theorem isMarkerStr_matchMarker {m : List Char} (rest : List Char) (h : IsMarkerStr m) :
    matchMarker (m ++ rest) = some rest := by
  rcases h with h | ⟨i, c, h⟩
  · rw [h]; exact matchMarker_end_self rest
  · rw [h]; exact matchMarker_start_self i c rest

/-! ## The annotated-line invariant -/

/-- A line is an annotation of an original line when it is the original
with whole marker strings spliced in at character boundaries. -/
inductive Ann : List Char → List Char → Prop where
  | nil : Ann [] []
  | chr (a : Char) {o c : List Char} : Ann o c → Ann (a :: o) (a :: c)
  | mark {m o c : List Char} : IsMarkerStr m → Ann o c → Ann o (m ++ c)

theorem ann_refl (o : List Char) : Ann o o := by
  induction o with
  | nil => exact Ann.nil
  | cons a o ih => exact Ann.chr a ih

theorem ann_prepend (l : List Char) {o c : List Char} (h : Ann o c) :
    Ann (l ++ o) (l ++ c) := by
  induction l with
  | nil => simpa using h
  | cons a t ih => exact Ann.chr a ih

theorem ann_append_marker {m o c : List Char} (hm : IsMarkerStr m) (h : Ann o c) :
    Ann o (c ++ m) := by
  induction h with
  | nil =>
    have : m ++ ([] : List Char) = [] ++ m := by simp
    simpa using Ann.mark hm Ann.nil
  | chr a h ih => exact Ann.chr a ih
  | mark hm' h ih =>
    rename_i m' o' c'
    have : (m' ++ c') ++ m = m' ++ (c' ++ m) := by simp
    rw [this]
    exact Ann.mark hm' ih

theorem stripF_of_ann {o c : List Char} (h : Ann o c) :
    (∀ ch ∈ o, ch ≠ '{') → ∀ f, c.length ≤ f → stripF f c = o := by
  induction h with
  | nil =>
    intro _ f _
    cases f <;> rfl
  | chr a h ih =>
    rename_i o' c'
    intro hb f hf
    cases f with
    | zero => simp at hf
    | succ f' =>
      have ha : a ≠ '{' := hb a (by simp)
      show stripF (f' + 1) (a :: c') = a :: o'
      unfold stripF
      rw [matchMarker_not_brace a c' ha]
      have hb' : ∀ ch ∈ o', ch ≠ '{' := fun ch hc => hb ch (by simp [hc])
      rw [ih hb' f' (by simpa using hf)]
  | mark hm h ih =>
    rename_i m o' c'
    intro hb f hf
    obtain ⟨t, rfl⟩ := marker_head hm
    cases f with
    | zero => simp at hf
    | succ f' =>
      show stripF (f' + 1) ('{' :: (t ++ c')) = o'
      unfold stripF
      have hmm : matchMarker ('{' :: (t ++ c')) = some c' := by
        have : '{' :: (t ++ c') = ('{' :: t) ++ c' := by simp
        rw [this]
        exact isMarkerStr_matchMarker c' hm
      rw [hmm]
      refine ih hb f' ?_
      have : (('{' :: t) ++ c').length = t.length + 1 + c'.length := by simp; omega
      simp at hf
      omega

theorem strip_of_ann {o c : List Char} (h : Ann o c) (hb : ∀ ch ∈ o, ch ≠ '{') :
    strip c = o :=
  stripF_of_ann h hb c.length le_rfl

/-- The working invariant for a line still being edited: the first `b`
characters are pristine original text, and the rest is an annotation of
the remainder of the original line. -/
def LineInv (o c : List Char) (b : Nat) : Prop :=
  b ≤ o.length ∧ ∃ rest, c = o.take b ++ rest ∧ Ann (o.drop b) rest

theorem lineInv_refl (o : List Char) : LineInv o o o.length :=
  ⟨le_rfl, [], by simp, by simpa using Ann.nil⟩

theorem lineInv_zero (o : List Char) : LineInv o o 0 :=
  ⟨Nat.zero_le _, o, by simp, by simpa using ann_refl o⟩

theorem lineInv_ann {o c : List Char} {b : Nat} (h : LineInv o c b) : Ann o c := by
  obtain ⟨hb, rest, rfl, ha⟩ := h
  have := ann_prepend (o.take b) ha
  rwa [List.take_append_drop] at this

theorem lineInv_mono {o c : List Char} {b b' : Nat} (h' : b' ≤ b)
    (h : LineInv o c b) : LineInv o c b' := by
  obtain ⟨hb, rest, rfl, ha⟩ := h
  set mid := (o.drop b').take (b - b') with hmiddef
  have hsplit : o.take b = o.take b' ++ mid := by
    rw [hmiddef, ← List.take_add]
    congr 1
    omega
  have hdropsplit : o.drop b' = mid ++ o.drop b := by
    have h1 : o.drop b = (o.drop b').drop (b - b') := by
      rw [List.drop_drop]
      congr 1
      omega
    rw [h1, hmiddef]
    exact (List.take_append_drop _ _).symm
  refine ⟨by omega, mid ++ rest, ?_, ?_⟩
  · rw [hsplit, List.append_assoc]
  · rw [hdropsplit]
    exact ann_prepend _ ha

theorem lineInv_append_marker {o c : List Char} {b : Nat} {m : List Char}
    (hm : IsMarkerStr m) (h : LineInv o c b) : LineInv o (c ++ m) b := by
  obtain ⟨hb, rest, rfl, ha⟩ := h
  exact ⟨hb, rest ++ m, by simp, ann_append_marker hm ha⟩

/-- The key step: a successful `insert_at_char` at index `q ≤ b + 1` on a
line whose first `b` characters are pristine yields a line whose first
`q - 1` characters are pristine, still an annotation of the original. -/
theorem lineInv_insert {o c : List Char} {b : Nat} (q : Nat) {m c' : List Char}
    (hm : IsMarkerStr m) (h : LineInv o c b) (hq : q ≤ b + 1)
    (hins : insert_at_char c q m = some c') : LineInv o c' (q - 1) := by
  rcases insert_at_char_some c q m c' hins with ⟨hge, rfl⟩ | ⟨hlt, rfl⟩
  · have hc : c.take c.length ++ m ++ c.drop c.length = c ++ m := by simp
    rw [hc]
    exact lineInv_mono (by omega) (lineInv_append_marker hm h)
  · obtain ⟨hble, rest, rfl, ha⟩ := h
    have hlen : (o.take b).length = b := by
      simp [hble]
    have hq1b : q - 1 ≤ b := by omega
    set mid := (o.take b).drop (q - 1) with hmiddef
    have htake : ((o.take b ++ rest).take (q - 1)) = o.take (q - 1) := by
      rw [List.take_append_of_le_length (by omega)]
      rw [List.take_take]
      congr 1
      omega
    have hdrop : ((o.take b ++ rest).drop (q - 1)) = mid ++ rest := by
      rw [List.drop_append_of_le_length (by omega)]
    have hmid : o.drop (q - 1) = mid ++ o.drop b := by
      conv_lhs => rw [show o = o.take b ++ o.drop b from (List.take_append_drop b o).symm]
      rw [List.drop_append_of_le_length (by omega)]
    rw [htake, hdrop]
    refine ⟨by omega, m ++ (mid ++ rest), by simp, ?_⟩
    refine Ann.mark hm ?_
    rw [hmid]
    exact ann_prepend _ ha

theorem endMarker_isMarker : IsMarkerStr endMarker := Or.inl rfl

theorem startMarker_isMarker (i : Nat) (c : Int) : IsMarkerStr (startMarker i c) :=
  Or.inr ⟨i, c, rfl⟩

/-! ## Cast arithmetic -/

theorem usizeOfInt_of_bounds (i : Int) (h0 : 0 ≤ i) (h1 : i < 2 ^ 64) :
    (usizeOfInt i : Int) = i := by
  unfold usizeOfInt
  rw [Int.emod_eq_of_lt h0 h1]
  exact Int.toNat_of_nonneg h0

theorem usizeOfInt_mono {a b : Int} (h0 : 0 ≤ a) (hab : a ≤ b) (hb : b < 2 ^ 64) :
    usizeOfInt a ≤ usizeOfInt b := by
  have ha := usizeOfInt_of_bounds a h0 (by omega)
  have hb' := usizeOfInt_of_bounds b (by omega) hb
  omega

theorem rowIdx_le {r₁ r₂ : Int} (h1 : 1 ≤ r₁) (hle : r₁ ≤ r₂) (h2 : r₂ < 2 ^ 64) :
    rowIdx r₁ ≤ rowIdx r₂ := by
  unfold rowIdx
  exact usizeOfInt_mono (by omega) (by omega) (by omega)

theorem rowIdx_lt {r₁ r₂ : Int} (h1 : 1 ≤ r₁) (hlt : r₁ < r₂) (h2 : r₂ < 2 ^ 64) :
    rowIdx r₁ < rowIdx r₂ := by
  unfold rowIdx
  have ha := usizeOfInt_of_bounds (r₁ - 1) (by omega) (by omega)
  have hb := usizeOfInt_of_bounds (r₂ - 1) (by omega) (by omega)
  omega

/-! ## The whole-file invariant during the marker-insertion loop -/

/-- State of the lines after processing a suffix of the reversed span
list: rows strictly below `R` are untouched, row `R` satisfies the line
invariant at bound `β`, and rows above `R` are finished annotations. -/
def MidSt (o cur : List (List Char)) (R β : Nat) : Prop :=
  cur.length = o.length ∧
  (∀ r, r < R → cur[r]? = o[r]?) ∧
  (∀ oc cc, o[R]? = some oc → cur[R]? = some cc → LineInv oc cc β) ∧
  (∀ r, R < r → ∀ oc cc, o[r]? = some oc → cur[r]? = some cc → Ann oc cc)

/-- Position bounds a collapsed span must satisfy to be processed safely
when the loop is in state `(R, β)`: 1-based rows below 2^64, nonnegative
columns below 2^64, start not after stop, columns at most one past the
addressed line's length, and the span's stop position within the already
established bound. -/
def SpanFits (o : List (List Char)) (R β : Nat) (sg : Seg) : Prop :=
  1 ≤ sg.start_row ∧ sg.stop_row < 2 ^ 64 ∧
  0 ≤ sg.start_col ∧ sg.start_col < 2 ^ 64 ∧
  0 ≤ sg.stop_col ∧ sg.stop_col < 2 ^ 64 ∧
  (sg.start_row < sg.stop_row ∨
    (sg.start_row = sg.stop_row ∧ sg.start_col ≤ sg.stop_col)) ∧
  (∀ oc, o[rowIdx sg.start_row]? = some oc →
    usizeOfInt sg.start_col ≤ oc.length + 1) ∧
  (∀ oc, o[rowIdx sg.stop_row]? = some oc →
    usizeOfInt sg.stop_col ≤ oc.length + 1) ∧
  (rowIdx sg.stop_row < R ∨
    (rowIdx sg.stop_row = R ∧ usizeOfInt sg.stop_col ≤ β + 1))

/-- The chain of fits along the processing (reverse-file) order. -/
def SpansChain (o : List (List Char)) : Nat → Nat → List Seg → Prop
  | _, _, [] => True
  | R, β, sg :: rest =>
    SpanFits o R β sg ∧
    SpansChain o (rowIdx sg.start_row) (usizeOfInt sg.start_col - 1) rest

theorem modifyLine_some {ls : List (List Char)} {r : Nat}
    {f : List Char → Option (List Char)} {ls' : List (List Char)}
    (h : modifyLine ls r f = some ls') :
    ∃ lr lr', ls[r]? = some lr ∧ f lr = some lr' ∧ ls' = ls.set r lr' := by
  unfold modifyLine at h
  split at h
  · next hr =>
    rw [Option.map_eq_some'] at h
    obtain ⟨lr', hf, hset⟩ := h
    refine ⟨ls.get ⟨r, hr⟩, lr', ?_, hf, hset.symm⟩
    simp [List.getElem?_eq_getElem hr]
  · simp at h

/-- Every line transformation the annotator performs on a finished row
preserves the annotation relation (it appends an end marker or prepends a
begin marker). -/
theorem ann_push {o c : List Char} (h : Ann o c) : Ann o (c ++ endMarker) :=
  ann_append_marker endMarker_isMarker h

theorem annotateMid_ann (idx : Nat) (sg : Seg) (rows : List Int) (lo : Nat)
    (hrows : ∀ r ∈ rows, lo < rowIdx r) :
    ∀ cur cur', annotateMid idx sg rows cur = some cur' →
      cur'.length = cur.length ∧
      (∀ r, r ≤ lo → cur'[r]? = cur[r]?) ∧
      (∀ r oc cc cc', lo < r → cur[r]? = some cc → cur'[r]? = some cc' →
        Ann oc cc → Ann oc cc') := by
  induction rows with
  | nil =>
    intro cur cur' h
    simp [annotateMid] at h
    subst h
    exact ⟨rfl, fun _ _ => rfl, fun r oc cc cc' _ h1 h2 ha => by
      rw [h1] at h2
      injection h2 with h2
      rwa [← h2]⟩
  | cons r₀ rs ih =>
    intro cur cur' h
    unfold annotateMid at h
    cases hm1 : modifyLine cur (rowIdx r₀) (fun l => some (l ++ endMarker)) with
    | none => rw [hm1] at h; simp at h
    | some cur1 =>
      rw [hm1] at h
      simp only [Option.bind_eq_bind, Option.some_bind] at h
      cases hm2 : modifyLine cur1 (rowIdx r₀)
          (fun l => insert_at_char l 0 (startMarker idx sg.count)) with
      | none => rw [hm2] at h; simp at h
      | some cur2 =>
        rw [hm2] at h
        simp only [Option.some_bind] at h
        obtain ⟨l1, l1', hget1, hf1, hset1⟩ := modifyLine_some hm1
        obtain ⟨l2, l2', hget2, hf2, hset2⟩ := modifyLine_some hm2
        obtain ⟨hlen3, hlow3, hann3⟩ := ih (fun r hr => hrows r (by simp [hr])) cur2 cur' h
        have hr0 : lo < rowIdx r₀ := hrows r₀ (by simp)
        simp only [Option.some_inj] at hf1
        have hl2i : insert_at_char l2 0 (startMarker idx sg.count) =
            some (startMarker idx sg.count ++ l2) := insert_at_char_zero _ _
        rw [hl2i] at hf2
        injection hf2 with hf2
        refine ⟨?_, ?_, ?_⟩
        · rw [hlen3, hset2, hset1]
          simp
        · intro r hr
          rw [hlow3 r hr, hset2, hset1]
          rw [List.getElem?_set_ne (by omega), List.getElem?_set_ne (by omega)]
        · intro r oc cc cc' hlt hcur hcur' ha
          by_cases hreq : r = rowIdx r₀
          · have hrlt : r < cur.length := by
              by_contra hge
              rw [List.getElem?_eq_none (by omega)] at hcur
              simp at hcur
            have hl1cc : l1 = cc := by
              rw [hreq] at hcur
              rw [hget1] at hcur
              injection hcur with hcc
            have hc1 : cur1[r]? = some (cc ++ endMarker) := by
              rw [hset1, hreq]
              rw [List.getElem?_set_eq_of_lt _ (by rw [← hreq]; exact hrlt)]
              rw [← hf1, hl1cc]
            have hl2cc : l2 = cc ++ endMarker := by
              rw [hreq] at hc1
              rw [hget2] at hc1
              injection hc1 with hcc
            have hrlt1 : r < cur1.length := by
              rw [hset1]
              simpa using hrlt
            have hc2 : cur2[r]? = some (startMarker idx sg.count ++ (cc ++ endMarker)) := by
              rw [hset2, hreq]
              rw [List.getElem?_set_eq_of_lt _ (by rw [← hreq]; exact hrlt1)]
              rw [← hf2, hl2cc]
            refine hann3 r oc _ cc' hlt hc2 hcur' ?_
            exact Ann.mark (startMarker_isMarker idx sg.count) (ann_push ha)
          · have hc2 : cur2[r]? = some cc := by
              rw [hset2, hset1]
              rw [List.getElem?_set_ne (by omega), List.getElem?_set_ne (by omega)]
              exact hcur
            exact hann3 r oc cc cc' hlt hc2 hcur' ha

theorem lt_of_getElem?_some {α : Type} {l : List α} {r : Nat} {x : α}
    (h : l[r]? = some x) : r < l.length := by
  by_contra hge
  rw [List.getElem?_eq_none (by omega)] at h
  simp at h

theorem getElem?_set_self_of_some {α : Type} {l : List α} {r : Nat} {x y : α}
    (h : l[r]? = some y) : (l.set r x)[r]? = some x :=
  List.getElem?_set_eq_of_lt x (lt_of_getElem?_some h)

/-- The two-insert edit on one line (end marker first, then begin marker
at a not-later index) performed on a line with a pristine bound `b0`. -/
theorem lineInv_two_inserts {oc cc cc1 cc2 : List Char} {b0 qE qB : Nat}
    {i : Nat} {cnt : Int}
    (h0 : LineInv oc cc b0) (hqE : qE ≤ b0 + 1) (hqB : qB ≤ qE)
    (h1 : insert_at_char cc qE endMarker = some cc1)
    (h2 : insert_at_char cc1 qB (startMarker i cnt) = some cc2) :
    LineInv oc cc2 (qB - 1) := by
  have s1 := lineInv_insert qE endMarker_isMarker h0 hqE h1
  exact lineInv_insert qB (startMarker_isMarker i cnt) s1 (by omega) h2

/-- Processing one span advances the whole-file invariant to the span's
start position. -/
theorem annotateSpan_midst {o cur : List (List Char)} {R β : Nat} (i : Nat) (sg : Seg)
    (hst : MidSt o cur R β) (hfit : SpanFits o R β sg) {cur' : List (List Char)}
    (h : annotateSpan cur i sg = some cur') :
    MidSt o cur' (rowIdx sg.start_row) (usizeOfInt sg.start_col - 1) := by
  obtain ⟨hlen, hbelow, hatR, habove⟩ := hst
  obtain ⟨hr1, hr2, hc1, hc2, hc3, hc4, hord, hinS, hinT, hbound⟩ := hfit
  have hrowle : sg.start_row ≤ sg.stop_row := by
    rcases hord with h' | ⟨h', _⟩ <;> omega
  have hrsrt : rowIdx sg.start_row ≤ rowIdx sg.stop_row := rowIdx_le hr1 hrowle hr2
  have hrtR : rowIdx sg.stop_row ≤ R := by
    rcases hbound with h' | ⟨h', _⟩ <;> omega
  unfold annotateSpan at h
  by_cases hrow : sg.start_row = sg.stop_row
  · rw [if_pos hrow] at h
    have hrtrs : rowIdx sg.stop_row = rowIdx sg.start_row := by rw [hrow]
    cases hm1 : modifyLine cur (rowIdx sg.start_row)
        (fun l => insert_at_char l (usizeOfInt sg.stop_col) endMarker) with
    | none => rw [hm1] at h; simp at h
    | some cur1 =>
      rw [hm1] at h
      simp only [Option.bind_eq_bind, Option.some_bind] at h
      obtain ⟨l1, l1', hget1, hf1, hset1⟩ := modifyLine_some hm1
      obtain ⟨l2, l2', hget2, hf2, hset2⟩ := modifyLine_some h
      have hrlt : rowIdx sg.start_row < cur.length := lt_of_getElem?_some hget1
      obtain ⟨oc, hoc⟩ : ∃ x, o[rowIdx sg.start_row]? = some x :=
        ⟨_, List.getElem?_eq_getElem (by omega)⟩
      have hrsR : rowIdx sg.start_row ≤ R := by omega
      have hb0 : ∃ b0, LineInv oc l1 b0 ∧ usizeOfInt sg.stop_col ≤ b0 + 1 := by
        rcases eq_or_lt_of_le hrsR with heq | hlt
        · refine ⟨β, hatR oc l1 (by rw [heq] at hoc; exact hoc)
            (by rw [heq] at hget1; exact hget1), ?_⟩
          rcases hbound with hb | ⟨_, hble⟩
          · omega
          · omega
        · have hpr := hbelow (rowIdx sg.start_row) hlt
          rw [hoc] at hpr
          rw [hpr] at hget1
          injection hget1 with hl1oc
          refine ⟨oc.length, by rw [← hl1oc]; exact lineInv_refl oc, ?_⟩
          exact hinT oc (by rw [hrtrs]; exact hoc)
      obtain ⟨b0, hb0inv, hb0qE⟩ := hb0
      have hqBqE : usizeOfInt sg.start_col ≤ usizeOfInt sg.stop_col := by
        rcases hord with hlt | ⟨_, hcle⟩
        · omega
        · exact usizeOfInt_mono hc1 hcle hc4
      have hl2 : l2 = l1' := by
        rw [hset1] at hget2
        rw [getElem?_set_self_of_some hget1] at hget2
        injection hget2 with h'
        exact h'.symm
      have hfin : LineInv oc l2' (usizeOfInt sg.start_col - 1) :=
        lineInv_two_inserts hb0inv hb0qE hqBqE hf1 (by rw [← hl2]; exact hf2)
      refine ⟨?_, ?_, ?_, ?_⟩
      · rw [hset2, hset1]
        simpa using hlen
      · intro r hr
        rw [hset2, hset1]
        rw [List.getElem?_set_ne (by omega), List.getElem?_set_ne (by omega)]
        exact hbelow r (by omega)
      · intro oc0 cc0 ho0 hc0
        rw [hoc] at ho0
        injection ho0 with ho0
        rw [hset2] at hc0
        rw [getElem?_set_self_of_some hget2] at hc0
        injection hc0 with hc0
        rw [← ho0, ← hc0]
        exact hfin
      · intro r hr oc0 cc0 ho0 hc0
        rw [hset2, hset1] at hc0
        rw [List.getElem?_set_ne (by omega), List.getElem?_set_ne (by omega)] at hc0
        rcases lt_trichotomy r R with hlt | heq | hgt
        · have hpr := hbelow r hlt
          rw [ho0] at hpr
          rw [hpr] at hc0
          injection hc0 with hc0
          rw [← hc0]
          exact ann_refl oc0
        · exact lineInv_ann (hatR oc0 cc0 (by rw [← heq]; exact ho0)
            (by rw [← heq]; exact hc0))
        · exact habove r hgt oc0 cc0 ho0 hc0
  · rw [if_neg hrow] at h
    have hrowlt : sg.start_row < sg.stop_row := by
      rcases hord with h' | ⟨h', _⟩
      · exact h'
      · omega
    have hrslt : rowIdx sg.start_row < rowIdx sg.stop_row := rowIdx_lt hr1 hrowlt hr2
    have hrsR : rowIdx sg.start_row < R := by omega
    cases hm1 : modifyLine cur (rowIdx sg.start_row) (fun l => some (l ++ endMarker)) with
    | none => rw [hm1] at h; simp at h
    | some cur1 =>
      rw [hm1] at h
      simp only [Option.bind_eq_bind, Option.some_bind] at h
      cases hm2 : modifyLine cur1 (rowIdx sg.start_row)
          (fun l => insert_at_char l (usizeOfInt sg.start_col) (startMarker i sg.count)) with
      | none => rw [hm2] at h; simp at h
      | some cur2 =>
        rw [hm2] at h
        simp only [Option.some_bind] at h
        cases hm3 : modifyLine cur2 (rowIdx sg.stop_row)
            (fun l => insert_at_char l (usizeOfInt sg.stop_col) endMarker) with
        | none => rw [hm3] at h; simp at h
        | some cur3 =>
          rw [hm3] at h
          simp only [Option.some_bind] at h
          cases hm4 : modifyLine cur3 (rowIdx sg.stop_row)
              (fun l => insert_at_char l 0 (startMarker i sg.count)) with
          | none => rw [hm4] at h; simp at h
          | some cur4 =>
            rw [hm4] at h
            simp only [Option.some_bind] at h
            obtain ⟨l1, l1', hget1, hf1, hset1⟩ := modifyLine_some hm1
            obtain ⟨l2, l2', hget2, hf2, hset2⟩ := modifyLine_some hm2
            obtain ⟨l3, l3', hget3, hf3, hset3⟩ := modifyLine_some hm3
            obtain ⟨l4, l4', hget4, hf4, hset4⟩ := modifyLine_some hm4
            have hrlt : rowIdx sg.start_row < cur.length := lt_of_getElem?_some hget1
            obtain ⟨ocs, hocs⟩ : ∃ x, o[rowIdx sg.start_row]? = some x :=
              ⟨_, List.getElem?_eq_getElem (by omega)⟩
            -- the start line is pristine (every earlier-processed span lives
            -- on rows at or above the stop row, which is strictly greater)
            have hpr := hbelow (rowIdx sg.start_row) hrsR
            rw [hocs] at hpr
            rw [hpr] at hget1
            injection hget1 with hl1oc
            simp only [Option.some_inj] at hf1
            -- start line after push and begin-marker insertion
            have hl2 : l2 = l1' := by
              rw [hset1] at hget2
              rw [getElem?_set_self_of_some hpr] at hget2
              injection hget2 with h'
              exact h'.symm
            have hstartInv : LineInv ocs l2' (usizeOfInt sg.start_col - 1) := by
              have hp : LineInv ocs (ocs ++ endMarker) ocs.length :=
                lineInv_append_marker endMarker_isMarker (lineInv_refl ocs)
              have hql : usizeOfInt sg.start_col ≤ ocs.length + 1 := hinS ocs hocs
              refine lineInv_insert _ (startMarker_isMarker i sg.count) hp hql ?_
              rw [hl2, ← hf1, ← hl1oc] at hf2
              exact hf2
            -- the stop line before its edits
            have hrtne : rowIdx sg.stop_row ≠ rowIdx sg.start_row := by omega
            have hget3' : cur[rowIdx sg.stop_row]? = some l3 := by
              rw [hset2, hset1] at hget3
              rw [List.getElem?_set_ne (by omega), List.getElem?_set_ne (by omega)] at hget3
              exact hget3
            obtain ⟨oct, hoct⟩ : ∃ x, o[rowIdx sg.stop_row]? = some x :=
              ⟨_, List.getElem?_eq_getElem (by
                have := lt_of_getElem?_some hget3'
                omega)⟩
            have hb0t : ∃ b0, LineInv oct l3 b0 ∧ usizeOfInt sg.stop_col ≤ b0 + 1 := by
              rcases hbound with hb | ⟨hbeq, hble⟩
              · have hprt := hbelow (rowIdx sg.stop_row) hb
                rw [hoct] at hprt
                rw [hprt] at hget3'
                injection hget3' with hl3oc
                refine ⟨oct.length, by rw [← hl3oc]; exact lineInv_refl oct, ?_⟩
                exact hinT oct hoct
              · refine ⟨β, hatR oct l3 (by rw [hbeq] at hoct; exact hoct)
                  (by rw [hbeq] at hget3'; exact hget3'), hble⟩
            obtain ⟨b0t, hb0tinv, hb0tqE⟩ := hb0t
            have hstopInv : LineInv oct l3' (usizeOfInt sg.stop_col - 1) :=
              lineInv_insert _ endMarker_isMarker hb0tinv hb0tqE hf3
            have hl4 : l4 = l3' := by
              rw [hset3] at hget4
              rw [getElem?_set_self_of_some hget3] at hget4
              injection hget4 with h'
              exact h'.symm
            have hstopAnn : Ann oct l4' := by
              have hz : insert_at_char l4 0 (startMarker i sg.count) =
                  some (startMarker i sg.count ++ l4) := insert_at_char_zero _ _
              rw [hz] at hf4
              injection hf4 with hf4
              rw [← hf4, hl4]
              exact Ann.mark (startMarker_isMarker i sg.count) (lineInv_ann hstopInv)
            -- facts about cur4
            have hlen4 : cur4.length = o.length := by
              rw [hset4, hset3, hset2, hset1]
              simpa using hlen
            have hc4below : ∀ r, r < rowIdx sg.start_row → cur4[r]? = cur[r]? := by
              intro r hr
              rw [hset4, hset3, hset2, hset1]
              rw [List.getElem?_set_ne (by omega), List.getElem?_set_ne (by omega),
                List.getElem?_set_ne (by omega), List.getElem?_set_ne (by omega)]
            have hc4at : cur4[rowIdx sg.start_row]? = some l2' := by
              rw [hset4, hset3]
              rw [List.getElem?_set_ne (by omega), List.getElem?_set_ne (by omega)]
              rw [hset2]
              exact getElem?_set_self_of_some hget2
            have hc4stop : cur4[rowIdx sg.stop_row]? = some l4' := by
              rw [hset4]
              exact getElem?_set_self_of_some hget4
            have hc4other : ∀ r, r ≠ rowIdx sg.start_row → r ≠ rowIdx sg.stop_row →
                cur4[r]? = cur[r]? := by
              intro r hne1 hne2
              rw [hset4, hset3, hset2, hset1]
              rw [List.getElem?_set_ne (by omega), List.getElem?_set_ne (by omega),
                List.getElem?_set_ne (by omega), List.getElem?_set_ne (by omega)]
            -- every row above the start row is a finished annotation in cur4
            have hc4ann : ∀ r, rowIdx sg.start_row < r →
                ∀ oc0 cc0, o[r]? = some oc0 → cur4[r]? = some cc0 → Ann oc0 cc0 := by
              intro r hr oc0 cc0 ho0 hc0
              by_cases hrt : r = rowIdx sg.stop_row
              · rw [hrt] at hc0 ho0
                rw [hc4stop] at hc0
                injection hc0 with hc0
                rw [hoct] at ho0
                injection ho0 with ho0
                rw [← hc0, ← ho0]
                exact hstopAnn
              · rw [hc4other r (by omega) hrt] at hc0
                rcases lt_trichotomy r R with hlt | heq | hgt
                · have hprx := hbelow r hlt
                  rw [ho0] at hprx
                  rw [hprx] at hc0
                  injection hc0 with hc0
                  rw [← hc0]
                  exact ann_refl oc0
                · exact lineInv_ann (hatR oc0 cc0 (by rw [← heq]; exact ho0)
                    (by rw [← heq]; exact hc0))
                · exact habove r hgt oc0 cc0 ho0 hc0
            -- the intermediate rows all lie strictly above the start row
            have hmidrows : ∀ r ∈ midRows sg, rowIdx sg.start_row < rowIdx r := by
              intro r hr
              unfold midRows at hr
              rw [List.mem_map] at hr
              obtain ⟨k, hkmem, hkeq⟩ := hr
              rw [List.mem_range] at hkmem
              have hk' : (k : Int) < sg.stop_row - sg.start_row - 1 := by omega
              rw [← hkeq]
              exact rowIdx_lt hr1 (by omega) (by omega)
            obtain ⟨hlen5, hlow5, hann5⟩ :=
              annotateMid_ann i sg (midRows sg) (rowIdx sg.start_row) hmidrows cur4 cur' h
            refine ⟨by rw [hlen5]; exact hlen4, ?_, ?_, ?_⟩
            · intro r hr
              rw [hlow5 r (by omega), hc4below r hr]
              exact hbelow r (by omega)
            · intro oc0 cc0 ho0 hc0
              rw [hlow5 _ le_rfl] at hc0
              rw [hc4at] at hc0
              injection hc0 with hc0
              rw [hocs] at ho0
              injection ho0 with ho0
              rw [← hc0, ← ho0]
              exact hstartInv
            · intro r hr oc0 cc0 ho0 hc0
              obtain ⟨cc4, hcc4⟩ : ∃ x, cur4[r]? = some x :=
                ⟨_, List.getElem?_eq_getElem (by
                  have := lt_of_getElem?_some ho0
                  omega)⟩
              exact hann5 r oc0 cc4 cc0 hr hcc4 hc0 (hc4ann r hr oc0 cc4 ho0 hcc4)

theorem midst_final {o cur : List (List Char)} {R β : Nat} (hst : MidSt o cur R β) :
    cur.length = o.length ∧
    ∀ (r : Nat) (oc cc : List Char), o[r]? = some oc → cur[r]? = some cc → Ann oc cc := by
  obtain ⟨hlen, hbelow, hatR, habove⟩ := hst
  refine ⟨hlen, ?_⟩
  intro r oc cc ho hc
  rcases lt_trichotomy r R with hlt | heq | hgt
  · have hpr := hbelow r hlt
    rw [ho] at hpr
    rw [hpr] at hc
    injection hc with hc
    rw [← hc]
    exact ann_refl oc
  · exact lineInv_ann (hatR oc cc (by rw [← heq]; exact ho) (by rw [← heq]; exact hc))
  · exact habove r hgt oc cc ho hc

/-- The full marker-insertion loop turns every line into an annotation of
its original, provided the spans fit the chain discipline. -/
theorem annotateAll_ann :
    ∀ (sps : List (Nat × Seg)) (o cur : List (List Char)) (R β : Nat),
      MidSt o cur R β →
      SpansChain o R β (sps.map Prod.snd) →
      ∀ out, annotateAll sps cur = some out →
        out.length = o.length ∧
        ∀ (r : Nat) (oc oc' : List Char), o[r]? = some oc → out[r]? = some oc' → Ann oc oc' := by
  intro sps
  induction sps with
  | nil =>
    intro o cur R β hst _ out hout
    simp [annotateAll] at hout
    subst hout
    exact midst_final hst
  | cons p rest ih =>
    intro o cur R β hst hchain out hout
    obtain ⟨i, sg⟩ := p
    unfold annotateAll at hout
    cases hsp : annotateSpan cur i sg with
    | none => rw [hsp] at hout; simp at hout
    | some cur1 =>
      rw [hsp] at hout
      simp only [Option.bind_eq_bind, Option.some_bind] at hout
      obtain ⟨hfit, hchain'⟩ := hchain
      exact ih o cur1 _ _ (annotateSpan_midst i sg hst hfit hsp) hchain' out hout

/-! ## From sorted segments to the chain discipline -/

/-- Per-segment well-formedness: 1-based line below 2^64, nonnegative
column below 2^64, column at most one place past the end of the addressed
line. -/
def SegOK (o : List (List Char)) (s : FileSegment) : Prop :=
  1 ≤ s.line ∧ s.line < 2 ^ 64 ∧ 0 ≤ s.col ∧ s.col < 2 ^ 64 ∧
  (∀ oc, o[rowIdx s.line]? = some oc → usizeOfInt s.col ≤ oc.length + 1)

/-- Segment order by (line, column), the order the coverage report uses. -/
def segLe (a b : FileSegment) : Prop :=
  a.line < b.line ∨ (a.line = b.line ∧ a.col ≤ b.col)

/-- Span-to-span order: the first span stops no later than the second
starts. -/
def posLeSeg (a b : Seg) : Prop :=
  a.stop_row < b.start_row ∨ (a.stop_row = b.start_row ∧ a.stop_col ≤ b.start_col)

/-- Intrinsic well-formedness of a collapsed span with respect to the
file's lines. -/
def SegWF (o : List (List Char)) (sg : Seg) : Prop :=
  1 ≤ sg.start_row ∧ sg.stop_row < 2 ^ 64 ∧
  0 ≤ sg.start_col ∧ sg.start_col < 2 ^ 64 ∧
  0 ≤ sg.stop_col ∧ sg.stop_col < 2 ^ 64 ∧
  (sg.start_row < sg.stop_row ∨
    (sg.start_row = sg.stop_row ∧ sg.start_col ≤ sg.stop_col)) ∧
  (∀ oc, o[rowIdx sg.start_row]? = some oc →
    usizeOfInt sg.start_col ≤ oc.length + 1) ∧
  (∀ oc, o[rowIdx sg.stop_row]? = some oc →
    usizeOfInt sg.stop_col ≤ oc.length + 1)

theorem spanFits_of_wf {o : List (List Char)} {R β : Nat} {sg : Seg}
    (hwf : SegWF o sg)
    (hb : rowIdx sg.stop_row < R ∨
      (rowIdx sg.stop_row = R ∧ usizeOfInt sg.stop_col ≤ β + 1)) :
    SpanFits o R β sg := by
  obtain ⟨a, b, c, d, e, f, g, h1, h2⟩ := hwf
  exact ⟨a, b, c, d, e, f, g, h1, h2, hb⟩

theorem segWF_rows {o : List (List Char)} {sg : Seg} (h : SegWF o sg) :
    1 ≤ sg.start_row ∧ sg.start_row ≤ sg.stop_row ∧ sg.stop_row < 2 ^ 64 ∧
    0 ≤ sg.start_col ∧ sg.start_col < 2 ^ 64 ∧
    0 ≤ sg.stop_col ∧ sg.stop_col < 2 ^ 64 := by
  obtain ⟨a, b, c, d, e, f, g, _, _⟩ := h
  rcases g with g | ⟨g, _⟩ <;> exact ⟨a, by omega, b, c, d, e, f⟩

/-- A span list that is reverse-ordered (each span is preceded, in
processing order, only by spans that start no earlier than it stops)
satisfies the chain discipline from any compatible starting bound. -/
theorem spansChain_of_chain (o : List (List Char)) :
    ∀ (l : List Seg) (R β : Nat),
      (∀ sg ∈ l, SegWF o sg) →
      List.Chain' (fun a b => posLeSeg b a) l →
      (∀ sg, l.head? = some sg →
        rowIdx sg.stop_row < R ∨
          (rowIdx sg.stop_row = R ∧ usizeOfInt sg.stop_col ≤ β + 1)) →
      SpansChain o R β l := by
  intro l
  induction l with
  | nil => intro R β _ _ _; trivial
  | cons sg rest ih =>
    intro R β hwf hch hhd
    refine ⟨spanFits_of_wf (hwf sg (by simp)) (hhd sg rfl), ?_⟩
    refine ih _ _ (fun t ht => hwf t (by simp [ht])) hch.tail ?_
    intro t ht
    have hrel : posLeSeg t sg := by
      cases rest with
      | nil => simp at ht
      | cons t0 r0 =>
        have ht0 : t0 = t := by
          injection ht
        rw [← ht0]
        exact (List.chain'_cons.mp hch).1
    have hwt := segWF_rows (hwf t (by
      cases rest with
      | nil => simp at ht
      | cons t0 r0 =>
        have ht0 : t0 = t := by injection ht
        simp [← ht0]))
    have hws := segWF_rows (hwf sg (by simp))
    rcases hrel with hlt | ⟨heq, hcle⟩
    · left
      exact rowIdx_lt (by omega) hlt (by omega)
    · right
      constructor
      · rw [heq]
      · have := usizeOfInt_mono (by omega : (0:Int) ≤ t.stop_col) hcle (by omega)
        omega

theorem extendGroup_start (c : Seg) (grp : List FileSegment) :
    (extendGroup c grp).start_row = c.start_row ∧
    (extendGroup c grp).start_col = c.start_col := by
  induction grp generalizing c with
  | nil => exact ⟨rfl, rfl⟩
  | cons s rest ih =>
    have h := ih (extendSeg c s)
    simpa [extendGroup, extendSeg] using h

theorem extendGroup_stop (c : Seg) (grp : List FileSegment) :
    ((extendGroup c grp).stop_row = c.stop_row ∧
      (extendGroup c grp).stop_col = c.stop_col) ∨
    (∃ t ∈ grp, (extendGroup c grp).stop_row = t.line ∧
      (extendGroup c grp).stop_col = t.col) := by
  induction grp generalizing c with
  | nil => left; exact ⟨rfl, rfl⟩
  | cons s rest ih =>
    rcases ih (extendSeg c s) with ⟨h1, h2⟩ | ⟨t, ht, h1, h2⟩
    · right
      refine ⟨s, by simp, ?_, ?_⟩
      · rw [show extendGroup c (s :: rest) = extendGroup (extendSeg c s) rest from rfl, h1]
        rfl
      · rw [show extendGroup c (s :: rest) = extendGroup (extendSeg c s) rest from rfl, h2]
        rfl
    · right
      exact ⟨t, by simp [ht], h1, h2⟩

/-- The spans the collapser produces from a sorted, well-formed segment
list are well formed, ordered, and the first span starts at the first
segment's position. -/
theorem collapseSpec_wf (o : List (List Char)) :
    ∀ n (segs : List FileSegment), segs.length ≤ n →
      (∀ s, segs.head? = some s → s.is_region_entry = true) →
      segs.Pairwise segLe →
      (∀ s ∈ segs, SegOK o s) →
      (∀ sg ∈ collapseSpec segs, SegWF o sg) ∧
      List.Chain' posLeSeg (collapseSpec segs) ∧
      (∀ sg s, (collapseSpec segs).head? = some sg → segs.head? = some s →
        sg.start_row = s.line ∧ sg.start_col = s.col) := by
  intro n
  induction n with
  | zero =>
    intro segs hlen _ _ _
    have : segs = [] := List.length_eq_zero.mp (by omega)
    subst this
    refine ⟨by intro sg hsg; simp [collapseSpec] at hsg, by simp [collapseSpec], ?_⟩
    intro sg s h1 h2
    simp at h2
  | succ n ih =>
    intro segs hlen hhead hsorted hok
    cases segs with
    | nil =>
      refine ⟨by intro sg hsg; simp [collapseSpec] at hsg, by simp [collapseSpec], ?_⟩
      intro sg s h1 h2
      simp at h2
    | cons s rest =>
      obtain ⟨hs_all, hrest⟩ := List.pairwise_cons.mp hsorted
      have hsplit : rest = rest.takeWhile (fun t => !t.is_region_entry) ++
          rest.dropWhile (fun t => !t.is_region_entry) :=
        (List.takeWhile_append_dropWhile _ _).symm
      have hpair2 : List.Pairwise segLe (rest.takeWhile (fun t => !t.is_region_entry) ++
          rest.dropWhile (fun t => !t.is_region_entry)) := by
        rw [← hsplit]
        exact hrest
      obtain ⟨ptw, pdw, hcross⟩ := List.pairwise_append.mp hpair2
      have htwsub : ∀ t ∈ rest.takeWhile (fun t => !t.is_region_entry), t ∈ rest :=
        fun t ht => List.takeWhile_subset _ ht
      have hdwsub : ∀ t ∈ rest.dropWhile (fun t => !t.is_region_entry), t ∈ rest :=
        fun t ht => List.dropWhile_subset _ ht
      have hdwlen : (rest.dropWhile (fun t => !t.is_region_entry)).length ≤ n := by
        have h1 := dropWhile_length_le (fun t : FileSegment => !t.is_region_entry) rest
        have h2 : rest.length + 1 ≤ n + 1 := by simpa using hlen
        omega
      obtain ⟨ihwf, ihch, ihhd⟩ := ih _ hdwlen (head_dropWhile_entry rest) pdw
        (fun t ht => hok t (by simp [hdwsub t ht]))
      -- the span emitted for this group
      set sp := extendGroup (pushSeg s) (rest.takeWhile (fun t => !t.is_region_entry))
        with hspdef
      have hstart : sp.start_row = s.line ∧ sp.start_col = s.col := by
        have h := extendGroup_start (pushSeg s) (rest.takeWhile (fun t => !t.is_region_entry))
        rw [hspdef]
        simpa [pushSeg] using h
      have hstop : ∃ u, (u = s ∨ u ∈ rest.takeWhile (fun t => !t.is_region_entry)) ∧
          sp.stop_row = u.line ∧ sp.stop_col = u.col := by
        rcases extendGroup_stop (pushSeg s) (rest.takeWhile (fun t => !t.is_region_entry))
          with ⟨h1, h2⟩ | ⟨t, ht, h1, h2⟩
        · exact ⟨s, Or.inl rfl, by rw [hspdef]; simpa [pushSeg] using h1,
            by rw [hspdef]; simpa [pushSeg] using h2⟩
        · exact ⟨t, Or.inr ht, by rw [hspdef]; exact h1, by rw [hspdef]; exact h2⟩
      obtain ⟨u, humem, hur, huc⟩ := hstop
      have hsu : segLe s u := by
        rcases humem with rfl | hmem
        · right
          exact ⟨rfl, le_rfl⟩
        · exact hs_all u (htwsub u hmem)
      have hokS : SegOK o s := hok s (by simp)
      have hokU : SegOK o u := by
        rcases humem with rfl | hmem
        · exact hokS
        · exact hok u (by simp [htwsub u hmem])
      obtain ⟨hS1, hS2, hS3, hS4, hS5⟩ := hokS
      obtain ⟨hU1, hU2, hU3, hU4, hU5⟩ := hokU
      have hspWF : SegWF o sp := by
        refine ⟨by rw [hstart.1]; exact hS1, by rw [hur]; exact hU2,
          by rw [hstart.2]; exact hS3, by rw [hstart.2]; exact hS4,
          by rw [huc]; exact hU3, by rw [huc]; exact hU4, ?_, ?_, ?_⟩
        · rcases hsu with hlt | ⟨heq, hle⟩
          · left
            rw [hstart.1, hur]
            exact hlt
          · right
            rw [hstart.1, hur, hstart.2, huc]
            exact ⟨heq, hle⟩
        · rw [hstart.1, hstart.2]
          exact hS5
        · rw [hur, huc]
          exact hU5
      have hcs : collapseSpec (s :: rest) =
          sp :: collapseSpec (rest.dropWhile (fun t => !t.is_region_entry)) := by
        rw [collapseSpec]
      refine ⟨?_, ?_, ?_⟩
      · intro sg hsg
        rw [hcs] at hsg
        rcases List.mem_cons.mp hsg with rfl | hmem
        · exact hspWF
        · exact ihwf sg hmem
      · rw [hcs]
        refine List.chain'_cons'.mpr ⟨?_, ihch⟩
        intro sp2 hsp2
        cases hdw : rest.dropWhile (fun t => !t.is_region_entry) with
        | nil =>
          rw [hdw] at hsp2
          simp [collapseSpec] at hsp2
        | cons d0 dw' =>
          have hd0 : d0 ∈ rest := hdwsub d0 (by rw [hdw]; simp)
          have hsp2pos := ihhd sp2 d0 (Option.mem_def.mp hsp2) (by rw [hdw]; rfl)
          have hud0 : segLe u d0 := by
            rcases humem with rfl | hmem
            · exact hs_all d0 hd0
            · exact hcross u hmem d0 (by rw [hdw]; simp)
          rcases hud0 with hlt | ⟨heq, hle⟩
          · left
            rw [hur, hsp2pos.1]
            exact hlt
          · right
            rw [hur, hsp2pos.1, huc, hsp2pos.2]
            exact ⟨heq, hle⟩
      · intro sg s' h1 h2
        rw [hcs] at h1
        injection h1 with h1
        injection h2 with h2
        rw [← h1, ← h2]
        exact hstart

theorem usizeOfInt_lt (i : Int) : usizeOfInt i < 2 ^ 64 := by
  unfold usizeOfInt
  have h1 : (0:Int) < 2 ^ 64 := by norm_num
  have h2 := Int.emod_nonneg i (by norm_num : (2 ^ 64 : Int) ≠ 0)
  have h3 := Int.emod_lt_of_pos i h1
  omega

/-- C2 amended: for every input file whose lines contain no brace
characters and every collapsed span list produced from a sorted,
first-entry segment list whose line numbers and columns are in range (a
1-based line below 2^64, a nonnegative column below 2^64 that is at most
one place past the end of its line), if the annotation pass completes
then deleting every begin-marker and end-marker string from the output
lines reproduces the original lines exactly. -/
theorem c2_roundtrip_amended
    (lines : List (List Char)) (segs : List FileSegment)
    (hbrace : ∀ l ∈ lines, ∀ ch ∈ l, ch ≠ '{')
    (hhead : ∀ s, segs.head? = some s → s.is_region_entry = true)
    (hsorted : segs.Pairwise segLe)
    (hok : ∀ s ∈ segs, SegOK lines s)
    (out : List (List Char))
    (hout : renderMarkedLines lines segs = some out) :
    out.map strip = lines := by
  unfold renderMarkedLines at hout
  rw [renderOrder, collapse_eq_spec segs hhead] at hout
  simp only [Option.map_some', Option.bind_eq_bind, Option.some_bind] at hout
  obtain ⟨hwfall, hchain, _⟩ :=
    collapseSpec_wf lines segs.length segs le_rfl hhead hsorted hok
  have hrevwf : ∀ sg ∈ (collapseSpec segs).reverse, SegWF lines sg := by
    intro sg hsg
    exact hwfall sg (List.mem_reverse.mp hsg)
  have hrevch : List.Chain' (fun a b => posLeSeg b a) (collapseSpec segs).reverse :=
    List.chain'_reverse.mpr hchain
  have hchain0 : SpansChain lines (2 ^ 64) 0 (collapseSpec segs).reverse := by
    refine spansChain_of_chain lines _ _ _ hrevwf hrevch ?_
    intro sg _
    left
    exact usizeOfInt_lt _
  have hinit : MidSt lines lines (2 ^ 64) 0 := by
    refine ⟨rfl, fun r _ => rfl, ?_, ?_⟩
    · intro oc cc ho hc
      rw [ho] at hc
      injection hc with hc
      rw [← hc]
      exact lineInv_zero oc
    · intro r _ oc cc ho hc
      rw [ho] at hc
      injection hc with hc
      rw [← hc]
      exact ann_refl oc
  have hmap : ((collapseSpec segs).reverse.enum.map Prod.snd) =
      (collapseSpec segs).reverse := List.enum_map_snd _
  obtain ⟨hlenout, hann⟩ := annotateAll_ann _ lines lines _ _ hinit
    (by rw [hmap]; exact hchain0) out hout
  apply List.ext_getElem?
  intro n
  rw [List.getElem?_map]
  cases ho : lines[n]? with
  | none =>
    have hno : out[n]? = none := by
      apply List.getElem?_eq_none
      rw [hlenout]
      by_contra hlt
      push_neg at hlt
      obtain ⟨x, hx⟩ : ∃ x, lines[n]? = some x := ⟨_, List.getElem?_eq_getElem hlt⟩
      rw [ho] at hx
      simp at hx
    rw [hno]
    rfl
  | some oc =>
    have hn : n < out.length := by
      rw [hlenout]
      exact lt_of_getElem?_some ho
    obtain ⟨cc, hcc⟩ : ∃ x, out[n]? = some x := ⟨_, List.getElem?_eq_getElem hn⟩
    rw [hcc]
    have hb : ∀ ch ∈ oc, ch ≠ '{' := hbrace oc (List.getElem?_mem ho)
    have hstr := strip_of_ann (hann n oc cc ho hcc) hb
    rw [Option.map_some', hstr]

/-- Witness for C2 amended: the single line "abc" with the sorted
segment list (entry at column 1 count 5, non-entry at column 2), whose
annotation succeeds and strips back to the original line. -/
theorem c2_roundtrip_amended_witness :
    ∃ out, renderMarkedLines ["abc".data]
        [⟨1, 1, 5, true, true, false⟩, ⟨1, 2, 0, true, false, false⟩] = some out ∧
      out.map strip = ["abc".data] := by
  refine ⟨[("\x7b\x7b start_segment 0 5 \x7d\x7da\x7b\x7b end_segment \x7d\x7dbc").data], by decide, ?_⟩
  refine c2_roundtrip_amended ["abc".data]
    [⟨1, 1, 5, true, true, false⟩, ⟨1, 2, 0, true, false, false⟩]
    (by decide) ?_ ?_ ?_ _ (by decide)
  · intro s hs
    injection hs with hs
    rw [← hs]
  · refine List.pairwise_cons.mpr ⟨?_, ?_⟩
    · intro b hb
      simp at hb
      rw [hb]
      right
      exact ⟨rfl, by norm_num⟩
    · simp
  · intro s hs
    simp at hs
    rcases hs with hs | hs <;> rw [hs] <;>
      refine ⟨by norm_num, by norm_num, by norm_num, by norm_num, ?_⟩ <;>
      intro oc hoc <;>
      · have : oc = "abc".data := by
          have h0 : rowIdx (1 : Int) = 0 := by decide
          rw [h0] at hoc
          injection hoc with h
          exact h.symm
        rw [this]
        decide

end Cosmoline
